import Mathlib

/-!
Shallow embedding of the network construction and collapsing core of the
Redistricting-NC repository (src/ring_network.py).

Modelling conventions:
* Numeric values are exact rationals.
* Marker node identity is the pair (dimension, value).  The source keys
  marker nodes by a formatted string carrying the dimension and the marker
  value; with exact arithmetic the pair carries the same identity.
* Python exceptions are modelled with the Except monad; the error kinds
  mirror the built-in exception that numpy or Python raises at that point.
* networkx adjacency is iterated in insertion order, so the integer
  neighbors of a marker are exactly the data rows assigned to it, in
  ascending row order; the embedding keeps that order.
* show_node_counts only prints statistics and does not change the graph;
  construct_net is therefore modelled as create_network followed by
  prune_markers_minimal.
-/

unseal Rat.add Rat.mul Rat.sub Rat.inv

/-- Python exception kinds that the translated code can raise. -/
inductive PyErr where
  | valueError
  | indexError
  | overflowError
  deriving DecidableEq, Repr

instance {ε α : Type _} [DecidableEq ε] [DecidableEq α] : DecidableEq (Except ε α) :=
  fun x y =>
    match x, y with
    | .error a, .error b => decidable_of_iff (a = b) (by simp)
    | .ok a, .ok b => decidable_of_iff (a = b) (by simp)
    | .error _, .ok _ => isFalse (fun h => Except.noConfusion h)
    | .ok _, .error _ => isFalse (fun h => Except.noConfusion h)

/-- Python int() on a rational: truncation toward zero. -/
def pyInt (q : ℚ) : ℤ := if 0 ≤ q then ⌊q⌋ else -⌊-q⌋

/-- Models int(num / den) on numpy floats: division by zero yields inf or
nan (never a ZeroDivisionError for numpy scalars), and int() of inf raises
OverflowError while int() of nan raises ValueError. -/
def pyIntDivE (num den : ℚ) : Except PyErr ℤ :=
  if den = 0 then .error (if num = 0 then .valueError else .overflowError)
  else .ok (pyInt (num / den))

/-- Python list indexing on a list of rationals: negative indices wrap
around from the end, and anything out of range raises IndexError. -/
def pyGetQ (l : List ℚ) (i : ℤ) : Except PyErr ℚ :=
  if 0 ≤ i then
    match l.get? i.toNat with
    | some x => .ok x
    | none => .error .indexError
  else if (-i).toNat ≤ l.length then .ok (l.getD (l.length - (-i).toNat) 0)
  else .error .indexError

/-- Python list indexing weights[dim], nonnegative index. -/
def pyGetF (l : List ℚ) (i : ℕ) : Except PyErr ℚ :=
  match l.get? i with
  | some x => .ok x
  | none => .error .indexError

/-- np.max of a column; ValueError on an empty array. -/
def listMaxE : List ℚ → Except PyErr ℚ
  | [] => .error .valueError
  | x :: xs => .ok (xs.foldl max x)

/-- np.min of a column; ValueError on an empty array. -/
def listMinE : List ℚ → Except PyErr ℚ
  | [] => .error .valueError
  | x :: xs => .ok (xs.foldl min x)

/-- Column dim of the data matrix, data[:, dim]. -/
def colVals (data : List (List ℚ)) (dim : ℕ) : List ℚ :=
  data.map (fun row => row.getD dim 0)

/-- Expanded graph built by create_network: data-row nodes are the integers
0 .. numRows-1; marker nodes, chain edges and assignment edges are kept in
insertion order, each edge with its weight. -/
structure ExpandedGraph where
  numRows : ℕ
  markerNodes : List (ℕ × ℚ)
  chainEdges : List ((ℕ × ℚ) × (ℕ × ℚ) × ℚ)
  assignEdges : List (ℕ × (ℕ × ℚ) × ℚ)
  deriving DecidableEq, Repr

/-- One iteration of the assignment loop of create_network for row r:
compute the bin index int((point_value - min_value) / window_size) and
look up markers[index] with Python indexing semantics. -/
def assignFor (data : List (List ℚ)) (dim : ℕ) (ws minv : ℚ) (markers : List ℚ)
    (w : ℚ) (r : ℕ) : Except PyErr (ℕ × (ℕ × ℚ) × ℚ) :=
  match pyIntDivE (((data.getD r []).getD dim 0) - minv) ws with
  | .error e => .error e
  | .ok idx =>
    match pyGetQ markers idx with
    | .error e => .error e
    | .ok lower => .ok (r, (dim, lower), w)

/-- Body of the per-dimension loop of create_network.  The evaluation
order matches the source: weights[dim], np.max, np.min, the bin count
n = int((max - min) / window_size) + 1, the marker list of n + 1 values,
the access markers[0] when the first marker node is added, then the
assignment loop over the rows.  Marker nodes and chain edges are appended
in creation order. -/
def processDim (data : List (List ℚ)) (weights : List ℚ) (ws : ℚ)
    (G : ExpandedGraph) (dim : ℕ) : Except PyErr ExpandedGraph :=
  match pyGetF weights dim with
  | .error e => .error e
  | .ok w =>
    match listMaxE (colVals data dim), listMinE (colVals data dim) with
    | .error e, _ => .error e
    | .ok _, .error e => .error e
    | .ok maxv, .ok minv =>
      match pyIntDivE (maxv - minv) ws with
      | .error e => .error e
      | .ok nI =>
        let markers := (List.range (nI + 2).toNat).map (fun (i : ℕ) => ws * (i : ℚ) + minv)
        match pyGetQ markers 0 with
        | .error e => .error e
        | .ok _ =>
          match (List.range data.length).mapM (assignFor data dim ws minv markers w) with
          | .error e => .error e
          | .ok assigns =>
            .ok { G with
                  markerNodes := G.markerNodes ++ markers.map (fun v => (dim, v)),
                  chainEdges := G.chainEdges ++
                    (markers.zip (markers.drop 1)).map (fun p => ((dim, p.1), (dim, p.2), w)),
                  assignEdges := G.assignEdges ++ assigns }

/-- create_network: one node per data row, then the per-dimension loop over
the data.shape[1] dimensions. -/
def create_network (D : ℕ) (data : List (List ℚ)) (weights : List ℚ) (ws : ℚ) :
    Except PyErr ExpandedGraph :=
  (List.range D).foldlM (fun G dim => processDim data weights ws G dim)
    { numRows := data.length, markerNodes := [], chainEdges := [], assignEdges := [] }

/-- Weighted undirected edge map of the reduced graph: association list
from a normalized unordered pair of row indices to the accumulated weight.
Keys appear in first-insertion order, as in a networkx graph. -/
abbrev EdgeMap := List ((ℕ × ℕ) × ℚ)

/-- Normalized representative of the unordered pair (a, b). -/
def normPair (a b : ℕ) : ℕ × ℕ := if a ≤ b then (a, b) else (b, a)

/-- G_pruned.has_edge(a, b). -/
def hasEdge (em : EdgeMap) (a b : ℕ) : Bool :=
  em.any (fun e => e.1 = normPair a b)

/-- Add or accumulate a weighted edge, as in the source: if the edge exists
its weight is increased by w, otherwise the edge is inserted with weight w. -/
def addEdge (em : EdgeMap) (a b : ℕ) (w : ℚ) : EdgeMap :=
  if hasEdge em a b then
    em.map (fun e => if e.1 = normPair a b then (e.1, e.2 + w) else e)
  else em ++ [(normPair a b, w)]

/-- Weight of the edge between a and b, or 0 when absent. -/
def wt (em : EdgeMap) (a b : ℕ) : ℚ :=
  match em.find? (fun e => e.1 = normPair a b) with
  | some e => e.2
  | none => 0

/-- Total weight of the edges incident to row r (self-loops counted once). -/
def incW (em : EdgeMap) (r : ℕ) : ℚ :=
  (em.map (fun e => if e.1.1 = r ∨ e.1.2 = r then e.2 else 0)).sum

/-- Integer neighbors of a marker node: the data rows with an assignment
edge to it, in insertion order (ascending row index). -/
def intNeighbors (G : ExpandedGraph) (m : ℕ × ℚ) : List ℕ :=
  (G.assignEdges.filter (fun e => e.2.1 = m)).map (fun e => e.1)

/-- Weight lookup G[marker_name][r].get(weight, 1.0) for an assignment
edge of the expanded graph. -/
def assignWeight (G : ExpandedGraph) (m : ℕ × ℚ) (r : ℕ) : ℚ :=
  match G.assignEdges.find? (fun e => e.1 = r ∧ e.2.1 = m) with
  | some e => e.2.2
  | none => 1

/-- Ring construction of prune_markers_minimal: for i in range(len(ns)),
add or accumulate an edge between ns[i] and ns[(i + 1) % len(ns)]. -/
def ringStep (em : EdgeMap) (ns : List ℕ) (w : ℚ) : EdgeMap :=
  (List.range ns.length).foldl
    (fun acc i => addEdge acc (ns.getD i 0) (ns.getD ((i + 1) % ns.length) 0) w) em

/-- Processing of one marker (by its index in the sorted marker list of its
dimension): skip when it has no integer neighbors; otherwise build the ring
over its neighbors and, when it is not the last marker and the next marker
has integer neighbors, add one bridge edge between the first neighbor of
each of the two markers. -/
def processMarker (G : ExpandedGraph) (markers : List (ℕ × ℚ)) (idx : ℕ)
    (em : EdgeMap) : EdgeMap :=
  let m := markers.getD idx (0, 0)
  let neighbors := intNeighbors G m
  if neighbors.length = 0 then em
  else
    let w := assignWeight G m (neighbors.headD 0)
    let em1 := ringStep em neighbors w
    if idx < markers.length - 1 then
      let nextM := markers.getD (idx + 1) (0, 0)
      let nextNs := intNeighbors G nextM
      if 0 < nextNs.length then addEdge em1 (neighbors.headD 0) (nextNs.headD 0) w
      else em1
    else em1

/-- Stable insertion of a marker into a list sorted by ascending value. -/
def insertByValue (x : ℕ × ℚ) : List (ℕ × ℚ) → List (ℕ × ℚ)
  | [] => [x]
  | y :: ys => if x.2 < y.2 then x :: y :: ys else y :: insertByValue x ys

/-- Stable sort of a marker list by ascending value, modelling
markers_by_dim[dim].sort(key=lambda x: x[1]). -/
def sortByValue (l : List (ℕ × ℚ)) : List (ℕ × ℚ) :=
  l.foldl (fun acc x => insertByValue x acc) []

/-- Keys of the defaultdict markers_by_dim in insertion order: the
dimensions of the marker nodes, first occurrence first. -/
def insertionDims (ms : List (ℕ × ℚ)) : List ℕ :=
  ms.foldl (fun acc m => if m.1 ∈ acc then acc else acc ++ [m.1]) []

/-- Per-dimension loop body of prune_markers_minimal: sort the markers of
the dimension by value and process each one in turn. -/
def dimPrune (G : ExpandedGraph) (em : EdgeMap) (dim : ℕ) : EdgeMap :=
  let markers := sortByValue (G.markerNodes.filter (fun m => m.1 = dim))
  (List.range markers.length).foldl (fun acc idx => processMarker G markers idx acc) em

/-- Node set of the pruned graph: the data-row nodes added first, then any
edge endpoint not yet present, as networkx add_edge would add it. -/
def collectNodes (dataNodes : List ℕ) (em : EdgeMap) : List ℕ :=
  em.foldl (fun acc e =>
    let acc1 := if e.1.1 ∈ acc then acc else acc ++ [e.1.1]
    if e.1.2 ∈ acc1 then acc1 else acc1 ++ [e.1.2]) dataNodes

/-- Reduced graph returned by prune_markers_minimal. -/
structure ReducedGraph where
  nodes : List ℕ
  edges : EdgeMap
  deriving DecidableEq, Repr

/-- prune_markers_minimal: keep the data-row nodes, then for each dimension
in marker insertion order process its value-sorted markers. -/
def prune_markers_minimal (G : ExpandedGraph) : ReducedGraph :=
  let dataNodes := List.range G.numRows
  let em := (insertionDims G.markerNodes).foldl (fun acc dim => dimPrune G acc dim) []
  { nodes := collectNodes dataNodes em, edges := em }

/-- construct_net: build the expanded graph, then collapse it.  The
diagnostic show_node_counts call only prints and is omitted. -/
def construct_net (D : ℕ) (data : List (List ℚ)) (weights : List ℚ) (ws : ℚ) :
    Except PyErr ReducedGraph :=
  match create_network D data weights ws with
  | .error e => .error e
  | .ok G => .ok (prune_markers_minimal G)

/-! Specification-side descriptions of the graph built on a valid input,
each proved equal to what the translated code computes. -/

/-- Maximum of a nonempty list, as the fold np.max computes it. -/
def maxOfList : List ℚ → ℚ
  | [] => 0
  | x :: xs => xs.foldl max x

/-- Minimum of a nonempty list, as the fold np.min computes it. -/
def minOfList : List ℚ → ℚ
  | [] => 0
  | x :: xs => xs.foldl min x

/-- Maximum of column d. -/
def dimMax (data : List (List ℚ)) (d : ℕ) : ℚ := maxOfList (colVals data d)

/-- Minimum of column d. -/
def dimMin (data : List (List ℚ)) (d : ℕ) : ℚ := minOfList (colVals data d)

/-- The bin count n of the source for dimension d: the index of the last
marker of the dimension. -/
def nMax (data : List (List ℚ)) (d : ℕ) (ws : ℚ) : ℤ :=
  ⌊(dimMax data d - dimMin data d) / ws⌋ + 1

/-- Value of the i-th marker of dimension d. -/
def markerVal (data : List (List ℚ)) (d : ℕ) (ws : ℚ) (i : ℕ) : ℚ :=
  ws * (i : ℚ) + dimMin data d

/-- Marker values of dimension d, ascending, n + 1 of them. -/
def markerList (data : List (List ℚ)) (d : ℕ) (ws : ℚ) : List ℚ :=
  (List.range (nMax data d ws + 1).toNat).map (fun i => markerVal data d ws i)

/-- Entry of the matrix at row r, column d. -/
def rowVal (data : List (List ℚ)) (r d : ℕ) : ℚ := (data.getD r []).getD d 0

/-- Bin index of row r in dimension d: floor of (value - min) / window. -/
def binNat (data : List (List ℚ)) (d : ℕ) (ws : ℚ) (r : ℕ) : ℕ :=
  (⌊(rowVal data r d - dimMin data d) / ws⌋).toNat

/-- Marker nodes contributed by dimension d. -/
def dimMarkers (data : List (List ℚ)) (d : ℕ) (ws : ℚ) : List (ℕ × ℚ) :=
  (markerList data d ws).map (fun v => (d, v))

/-- Chain edges contributed by dimension d, each of weight w. -/
def dimChains (data : List (List ℚ)) (d : ℕ) (ws w : ℚ) :
    List ((ℕ × ℚ) × (ℕ × ℚ) × ℚ) :=
  ((markerList data d ws).zip ((markerList data d ws).drop 1)).map
    (fun p => ((d, p.1), (d, p.2), w))

/-- Assignment edges contributed by dimension d: row r is joined to the
marker of its bin, with weight w. -/
def dimAssigns (data : List (List ℚ)) (d : ℕ) (ws w : ℚ) :
    List (ℕ × (ℕ × ℚ) × ℚ) :=
  (List.range data.length).map
    (fun r => (r, (d, markerVal data d ws (binNat data d ws r)), w))

/-- The expanded graph create_network produces on a valid input. -/
def expandedOf (D : ℕ) (data : List (List ℚ)) (weights : List ℚ) (ws : ℚ) :
    ExpandedGraph :=
  { numRows := data.length
  , markerNodes := ((List.range D).map (fun d => dimMarkers data d ws)).flatten
  , chainEdges := ((List.range D).map (fun d => dimChains data d ws (weights.getD d 0))).flatten
  , assignEdges := ((List.range D).map (fun d => dimAssigns data d ws (weights.getD d 0))).flatten }

/-- Valid input per the preconditions: a nonempty matrix with D columns,
one positive weight per column, and a positive window size. -/
def Valid (D : ℕ) (data : List (List ℚ)) (weights : List ℚ) (ws : ℚ) : Prop :=
  data ≠ [] ∧ (∀ row ∈ data, row.length = D) ∧ weights.length = D ∧ 0 < ws ∧
    ∀ w ∈ weights, 0 < w

instance (D : ℕ) (data : List (List ℚ)) (weights : List ℚ) (ws : ℚ) :
    Decidable (Valid D data weights ws) := by
  unfold Valid; infer_instance

/-- The index pairs traversed by the ring loop over a neighbor list. -/
def ringPairs (ns : List ℕ) : List (ℕ × ℕ) :=
  (List.range ns.length).map (fun i => (ns.getD i 0, ns.getD ((i + 1) % ns.length) 0))

/-- Accumulate the weight w on each pair of a list in turn. -/
def addList (em : EdgeMap) (l : List (ℕ × ℕ)) (w : ℚ) : EdgeMap :=
  l.foldl (fun acc p => addEdge acc p.1 p.2 w) em

/-- Each unordered pair occurs at most once in the edge map, an invariant
every map built by addEdge from the empty map satisfies. -/
def keysNodup (em : EdgeMap) : Prop := (em.map (fun e => e.1)).Nodup

/-- All edge endpoints are data rows below R. -/
def emBounded (R : ℕ) (em : EdgeMap) : Prop := ∀ e ∈ em, e.1.1 < R ∧ e.1.2 < R

/-- The concrete scenario matrix: one dimension, values 0, 1, 2, 3. -/
def dataC1 : List (List ℚ) := [[0], [1], [2], [3]]

/-- The expanded graph of the concrete scenario. -/
def expC1 : ExpandedGraph :=
  { numRows := 4
  , markerNodes := [(0, 0), (0, 2), (0, 4)]
  , chainEdges := [((0, 0), (0, 2), 1), ((0, 2), (0, 4), 1)]
  , assignEdges := [(0, (0, 0), 1), (1, (0, 0), 1), (2, (0, 2), 1), (3, (0, 2), 1)] }

/-- The graph the builder returns for the scenario matrix when the window
size is the invalid value -2: a single marker that every row is assigned
to through Python negative indexing, and no error anywhere. -/
def negWindowGraph : ExpandedGraph :=
  { numRows := 4
  , markerNodes := [(0, 0)]
  , chainEdges := []
  , assignEdges := [(0, (0, 0), 1), (1, (0, 0), 1), (2, (0, 0), 1), (3, (0, 0), 1)] }

/-- One dimension, values 0..5: three populated bins of two rows each. -/
def dataC8 : List (List ℚ) := [[0], [1], [2], [3], [4], [5]]

/-- The reduced edge map of the dataC8 run. -/
def edgesC8 : EdgeMap :=
  [((0, 1), 2), ((0, 2), 1), ((2, 3), 2), ((2, 4), 1), ((4, 5), 2)]

/-! Lemmas about the weighted edge map. -/

theorem normPair_endpoint (a b r : ℕ) :
    ((normPair a b).1 = r ∨ (normPair a b).2 = r) ↔ (a = r ∨ b = r) := by
  unfold normPair
  split
  · exact Iff.rfl
  · exact or_comm

theorem normPair_cases (a b : ℕ) : normPair a b = (a, b) ∨ normPair a b = (b, a) := by
  unfold normPair
  split
  · exact Or.inl rfl
  · exact Or.inr rfl

theorem hasEdge_iff (em : EdgeMap) (a b : ℕ) :
    hasEdge em a b = true ↔ ∃ e ∈ em, e.1 = normPair a b := by
  unfold hasEdge
  simp [List.any_eq_true]

theorem wt_addEdge (em : EdgeMap) (a b : ℕ) (w : ℚ) (x y : ℕ) :
    wt (addEdge em a b w) x y =
      wt em x y + (if normPair x y = normPair a b then w else 0) := by
  unfold addEdge
  by_cases h : hasEdge em a b = true
  · rw [if_pos h]
    unfold wt
    rw [List.find?_map]
    have hcomp :
        ((fun e => decide (e.1 = normPair x y)) ∘
          (fun e : (ℕ × ℕ) × ℚ => if e.1 = normPair a b then (e.1, e.2 + w) else e)) =
          (fun e : (ℕ × ℕ) × ℚ => decide (e.1 = normPair x y)) := by
      funext e
      by_cases he : e.1 = normPair a b <;> simp [Function.comp, he]
    rw [hcomp]
    by_cases hk : normPair x y = normPair a b
    · obtain ⟨e, hmem, hkey⟩ := (hasEdge_iff em a b).1 h
      cases hfind : em.find? (fun e => decide (e.1 = normPair x y)) with
      | none =>
          exfalso
          rw [List.find?_eq_none] at hfind
          exact hfind e hmem (by simp [hkey, hk])
      | some e0 =>
          have hkey0 : e0.1 = normPair x y := by simpa using List.find?_some hfind
          simp [hkey0, hk]
    · cases hfind : em.find? (fun e => decide (e.1 = normPair x y)) with
      | none => simp [hk]
      | some e0 =>
          have hkey0 : e0.1 = normPair x y := by simpa using List.find?_some hfind
          have hne : ¬ e0.1 = normPair a b := by rw [hkey0]; exact hk
          simp [hkey0, hne, hk]
  · rw [if_neg h]
    unfold wt
    rw [List.find?_append]
    by_cases hk : normPair x y = normPair a b
    · have hnone : em.find? (fun e => decide (e.1 = normPair x y)) = none := by
        rw [List.find?_eq_none]
        intro e hmem hpe
        exact h ((hasEdge_iff em a b).2 ⟨e, hmem, by simpa [hk] using hpe⟩)
      rw [hnone]
      simp [List.find?, hk]
    · cases hfind : em.find? (fun e => decide (e.1 = normPair x y)) with
      | none => simp [List.find?, hk, Ne.symm hk]
      | some e0 => simp [hk]

theorem incW_cons (e : (ℕ × ℕ) × ℚ) (em : EdgeMap) (r : ℕ) :
    incW (e :: em) r = (if e.1.1 = r ∨ e.1.2 = r then e.2 else 0) + incW em r := by
  simp [incW]

theorem incW_update (em : EdgeMap) (k : ℕ × ℕ) (w : ℚ) (r : ℕ)
    (h : keysNodup em) (hk : ∃ e ∈ em, e.1 = k) :
    incW (em.map (fun e => if e.1 = k then (e.1, e.2 + w) else e)) r =
      incW em r + (if k.1 = r ∨ k.2 = r then w else 0) := by
  induction em with
  | nil => simp at hk
  | cons e em ih =>
      have h' : e.1 ∉ em.map (fun x => x.1) ∧ (em.map (fun x => x.1)).Nodup := by
        unfold keysNodup at h
        rw [List.map_cons, List.nodup_cons] at h
        exact h
      have hnod : keysNodup em := h'.2
      by_cases he : e.1 = k
      · have hnotail : ∀ e2 ∈ em, ¬ e2.1 = k := by
          intro e2 hmem heq
          exact h'.1 (by rw [he, ← heq]; exact List.mem_map_of_mem _ hmem)
        have htail : em.map (fun e2 => if e2.1 = k then (e2.1, e2.2 + w) else e2) = em := by
          apply List.map_congr_left (g := id) ?_ |>.trans (List.map_id em)
          intro e2 hmem
          simp [hnotail e2 hmem]
        rw [List.map_cons, htail, if_pos he, incW_cons, incW_cons]
        rw [he]
        by_cases ht : k.1 = r ∨ k.2 = r
        · simp [ht]
          ring
        · simp [ht]
      · have hk2 : ∃ e2 ∈ em, e2.1 = k := by
          rcases hk with ⟨e2, hmem, hkey⟩
          rcases List.mem_cons.1 hmem with h1 | h1
          · exact absurd (h1 ▸ hkey) he
          · exact ⟨e2, h1, hkey⟩
        rw [List.map_cons, if_neg he, incW_cons, incW_cons, ih hnod hk2]
        ring

theorem incW_addEdge (em : EdgeMap) (a b : ℕ) (w : ℚ) (r : ℕ) (h : keysNodup em) :
    incW (addEdge em a b w) r = incW em r + (if a = r ∨ b = r then w else 0) := by
  unfold addEdge
  by_cases hh : hasEdge em a b = true
  · rw [if_pos hh, incW_update em (normPair a b) w r h ((hasEdge_iff em a b).1 hh)]
    rw [if_congr (normPair_endpoint a b r) rfl rfl]
  · rw [if_neg hh]
    unfold incW
    rw [List.map_append, List.sum_append]
    simp only [List.map_cons, List.map_nil, List.sum_cons, List.sum_nil]
    rw [if_congr (normPair_endpoint a b r) rfl rfl]
    ring

theorem keysNodup_nil : keysNodup [] := by
  unfold keysNodup
  simp

theorem keysNodup_addEdge (em : EdgeMap) (a b : ℕ) (w : ℚ) (h : keysNodup em) :
    keysNodup (addEdge em a b w) := by
  unfold addEdge
  by_cases hh : hasEdge em a b = true
  · rw [if_pos hh]
    unfold keysNodup at h ⊢
    rw [List.map_map]
    have hfst :
        ((fun e : (ℕ × ℕ) × ℚ => e.1) ∘
          (fun e : (ℕ × ℕ) × ℚ => if e.1 = normPair a b then (e.1, e.2 + w) else e)) =
          (fun e : (ℕ × ℕ) × ℚ => e.1) := by
      funext e
      by_cases he : e.1 = normPair a b <;> simp [Function.comp, he]
    rw [hfst]
    exact h
  · rw [if_neg hh]
    unfold keysNodup at h ⊢
    rw [List.map_append]
    have hnk : normPair a b ∉ em.map (fun e => e.1) := by
      intro hmem
      rcases List.mem_map.1 hmem with ⟨e, hmem2, hkey⟩
      exact hh ((hasEdge_iff em a b).2 ⟨e, hmem2, hkey⟩)
    simp [List.nodup_append, h, hnk]

theorem emBounded_nil (R : ℕ) : emBounded R [] := by
  intro e he
  simp at he

theorem emBounded_addEdge {R : ℕ} {em : EdgeMap} {a b : ℕ} {w : ℚ}
    (hem : emBounded R em) (ha : a < R) (hb : b < R) :
    emBounded R (addEdge em a b w) := by
  unfold addEdge
  by_cases hh : hasEdge em a b = true
  · rw [if_pos hh]
    intro e he
    rcases List.mem_map.1 he with ⟨e0, hmem, heq⟩
    have hb0 := hem e0 hmem
    rw [← heq]
    by_cases h0 : e0.1 = normPair a b
    · rw [if_pos h0]
      exact hb0
    · rw [if_neg h0]
      exact hb0
  · rw [if_neg hh]
    intro e he
    rcases List.mem_append.1 he with hmem | hmem
    · exact hem e hmem
    · have : e = (normPair a b, w) := by simpa using hmem
      rw [this]
      rcases normPair_cases a b with hc | hc <;> rw [hc] <;> exact ⟨by assumption, by assumption⟩

theorem addList_cons (em : EdgeMap) (p : ℕ × ℕ) (l : List (ℕ × ℕ)) (w : ℚ) :
    addList em (p :: l) w = addList (addEdge em p.1 p.2 w) l w := rfl

theorem wt_addList (em : EdgeMap) (l : List (ℕ × ℕ)) (w : ℚ) (x y : ℕ) :
    wt (addList em l w) x y =
      wt em x y + w * (l.countP (fun p => normPair p.1 p.2 = normPair x y) : ℕ) := by
  induction l generalizing em with
  | nil => simp [addList]
  | cons p l ih =>
      rw [addList_cons, ih, wt_addEdge, List.countP_cons]
      by_cases hp : normPair p.1 p.2 = normPair x y
      · rw [if_pos hp.symm]
        simp only [hp, decide_True, if_true]
        push_cast
        ring
      · rw [if_neg (fun hq => hp hq.symm)]
        simp only [hp, decide_False, if_false]
        push_cast
        ring

theorem keysNodup_addList (em : EdgeMap) (l : List (ℕ × ℕ)) (w : ℚ)
    (h : keysNodup em) : keysNodup (addList em l w) := by
  induction l generalizing em with
  | nil => exact h
  | cons p l ih => exact ih _ (keysNodup_addEdge _ _ _ _ h)

theorem incW_addList (em : EdgeMap) (l : List (ℕ × ℕ)) (w : ℚ) (r : ℕ)
    (h : keysNodup em) :
    incW (addList em l w) r =
      incW em r + w * (l.countP (fun p => p.1 = r ∨ p.2 = r) : ℕ) := by
  induction l generalizing em with
  | nil => simp [addList]
  | cons p l ih =>
      rw [addList_cons, ih _ (keysNodup_addEdge _ _ _ _ h), incW_addEdge _ _ _ _ _ h,
        List.countP_cons]
      by_cases hp : p.1 = r ∨ p.2 = r
      · simp [hp]
        ring
      · simp [hp]

theorem emBounded_addList {R : ℕ} {em : EdgeMap} {l : List (ℕ × ℕ)} {w : ℚ}
    (hem : emBounded R em) (hl : ∀ p ∈ l, p.1 < R ∧ p.2 < R) :
    emBounded R (addList em l w) := by
  induction l generalizing em with
  | nil => exact hem
  | cons p l ih =>
      rw [addList_cons]
      exact ih (emBounded_addEdge hem (hl p (by simp)).1 (hl p (by simp)).2)
        (fun q hq => hl q (by simp [hq]))

theorem ringStep_eq_addList (em : EdgeMap) (ns : List ℕ) (w : ℚ) :
    ringStep em ns w = addList em (ringPairs ns) w := by
  unfold ringStep ringPairs addList
  rw [List.foldl_map]

/-! Helper lemmas for the builder characterization. -/

theorem exceptOkBind {ε α β : Type _} (a : α) (f : α → Except ε β) :
    (Except.ok a : Except ε α) >>= f = f a := rfl

theorem pyInt_eq_floor (q : ℚ) (h : 0 ≤ q) : pyInt q = ⌊q⌋ := by
  unfold pyInt
  rw [if_pos h]

theorem le_foldl_max (l : List ℚ) (a : ℚ) : a ≤ l.foldl max a := by
  induction l generalizing a with
  | nil => exact le_refl a
  | cons y l ih => exact le_trans (le_max_left a y) (ih (max a y))

theorem mem_le_foldl_max (l : List ℚ) (a x : ℚ) (hx : x ∈ l) : x ≤ l.foldl max a := by
  induction l generalizing a with
  | nil => simp at hx
  | cons y l ih =>
      rcases List.mem_cons.1 hx with h | h
      · rw [List.foldl_cons, h]
        exact le_trans (le_max_right a y) (le_foldl_max l (max a y))
      · exact ih (max a y) h

theorem foldl_max_mem (l : List ℚ) (a : ℚ) : l.foldl max a ∈ a :: l := by
  induction l generalizing a with
  | nil => simp
  | cons y l ih =>
      rw [List.foldl_cons]
      rcases List.mem_cons.1 (ih (max a y)) with h | h
      · rw [h]
        rcases max_choice a y with hm | hm <;> rw [hm] <;> simp
      · simp [h]

theorem foldl_min_le (l : List ℚ) (a : ℚ) : l.foldl min a ≤ a := by
  induction l generalizing a with
  | nil => exact le_refl a
  | cons y l ih => exact le_trans (ih (min a y)) (min_le_left a y)

theorem foldl_min_le_mem (l : List ℚ) (a x : ℚ) (hx : x ∈ l) : l.foldl min a ≤ x := by
  induction l generalizing a with
  | nil => simp at hx
  | cons y l ih =>
      rcases List.mem_cons.1 hx with h | h
      · rw [List.foldl_cons, h]
        exact le_trans (foldl_min_le l (min a y)) (min_le_right a y)
      · exact ih (min a y) h

theorem foldl_min_mem (l : List ℚ) (a : ℚ) : l.foldl min a ∈ a :: l := by
  induction l generalizing a with
  | nil => simp
  | cons y l ih =>
      rw [List.foldl_cons]
      rcases List.mem_cons.1 (ih (min a y)) with h | h
      · rw [h]
        rcases min_choice a y with hm | hm <;> rw [hm] <;> simp
      · simp [h]

theorem colVals_ne_nil {data : List (List ℚ)} {d : ℕ} (h : data ≠ []) :
    colVals data d ≠ [] := by
  unfold colVals
  simpa using h

theorem listMaxE_eq (data : List (List ℚ)) (d : ℕ) (h : data ≠ []) :
    listMaxE (colVals data d) = .ok (dimMax data d) := by
  unfold listMaxE dimMax maxOfList
  cases hcol : colVals data d with
  | nil => exact absurd hcol (colVals_ne_nil h)
  | cons x xs => rfl

theorem listMinE_eq (data : List (List ℚ)) (d : ℕ) (h : data ≠ []) :
    listMinE (colVals data d) = .ok (dimMin data d) := by
  unfold listMinE dimMin minOfList
  cases hcol : colVals data d with
  | nil => exact absurd hcol (colVals_ne_nil h)
  | cons x xs => rfl

theorem dimMin_le_mem (data : List (List ℚ)) (d : ℕ) (x : ℚ) (hx : x ∈ colVals data d) :
    dimMin data d ≤ x := by
  unfold dimMin minOfList
  cases hcol : colVals data d with
  | nil => rw [hcol] at hx; simp at hx
  | cons y ys =>
      rw [hcol] at hx
      rcases List.mem_cons.1 hx with h | h
      · rw [h]
        exact foldl_min_le ys y
      · exact foldl_min_le_mem ys y x h

theorem mem_le_dimMax (data : List (List ℚ)) (d : ℕ) (x : ℚ) (hx : x ∈ colVals data d) :
    x ≤ dimMax data d := by
  unfold dimMax maxOfList
  cases hcol : colVals data d with
  | nil => rw [hcol] at hx; simp at hx
  | cons y ys =>
      rw [hcol] at hx
      rcases List.mem_cons.1 hx with h | h
      · rw [h]
        exact le_foldl_max ys y
      · exact mem_le_foldl_max ys y x h

theorem dimMax_mem (data : List (List ℚ)) (d : ℕ) (h : data ≠ []) :
    dimMax data d ∈ colVals data d := by
  unfold dimMax maxOfList
  rcases hlist : colVals data d with _ | ⟨y, ys⟩
  · exact absurd hlist (colVals_ne_nil h)
  · exact foldl_max_mem ys y

theorem dimMin_mem (data : List (List ℚ)) (d : ℕ) (h : data ≠ []) :
    dimMin data d ∈ colVals data d := by
  unfold dimMin minOfList
  rcases hlist : colVals data d with _ | ⟨y, ys⟩
  · exact absurd hlist (colVals_ne_nil h)
  · exact foldl_min_mem ys y

theorem dimMin_le_dimMax (data : List (List ℚ)) (d : ℕ) (h : data ≠ []) :
    dimMin data d ≤ dimMax data d :=
  dimMin_le_mem data d _ (dimMax_mem data d h)

theorem rowVal_mem_colVals (data : List (List ℚ)) (r d : ℕ) (hr : r < data.length) :
    rowVal data r d ∈ colVals data d := by
  unfold rowVal colVals
  rw [List.getD_eq_getElem data [] hr]
  exact List.mem_map_of_mem _ (List.getElem_mem hr)

theorem nMax_pos (data : List (List ℚ)) (d : ℕ) (ws : ℚ) (hdata : data ≠ [])
    (hws : 0 < ws) : 0 < nMax data d ws := by
  unfold nMax
  have h0 : (0:ℚ) ≤ (dimMax data d - dimMin data d) / ws :=
    div_nonneg (sub_nonneg.2 (dimMin_le_dimMax data d hdata)) hws.le
  have := Int.floor_nonneg.2 h0
  omega

theorem binNat_le (data : List (List ℚ)) (d : ℕ) (ws : ℚ) (r : ℕ)
    (hws : 0 < ws) (hr : r < data.length) :
    (binNat data d ws r : ℤ) = ⌊(rowVal data r d - dimMin data d) / ws⌋ ∧
      (binNat data d ws r : ℤ) ≤ nMax data d ws - 1 := by
  have hv := rowVal_mem_colVals data r d hr
  have h0 : (0:ℚ) ≤ (rowVal data r d - dimMin data d) / ws :=
    div_nonneg (sub_nonneg.2 (dimMin_le_mem _ _ _ hv)) hws.le
  have hfl : 0 ≤ ⌊(rowVal data r d - dimMin data d) / ws⌋ := Int.floor_nonneg.2 h0
  constructor
  · unfold binNat
    exact Int.toNat_of_nonneg hfl
  · unfold binNat nMax
    rw [Int.toNat_of_nonneg hfl]
    have hle : (rowVal data r d - dimMin data d) / ws ≤
        (dimMax data d - dimMin data d) / ws :=
      (div_le_div_iff_of_pos_right hws).2 (by linarith [mem_le_dimMax data d _ hv])
    have := Int.floor_mono hle
    omega

theorem getD_map_range (n : ℕ) (f : ℕ → ℚ) (i : ℕ) (h : i < n) :
    ((List.range n).map f).getD i 0 = f i := by
  rw [List.getD_eq_getElem _ 0 (by simpa using h)]
  simp

theorem markerList_length (data : List (List ℚ)) (d : ℕ) (ws : ℚ) :
    (markerList data d ws).length = (nMax data d ws + 1).toNat := by
  unfold markerList
  simp

theorem markerList_getD (data : List (List ℚ)) (d : ℕ) (ws : ℚ) (i : ℕ)
    (h : i < (markerList data d ws).length) :
    (markerList data d ws).getD i 0 = markerVal data d ws i := by
  have h2 : i < (nMax data d ws + 1).toNat := by
    rw [markerList_length] at h
    exact h
  exact getD_map_range _ _ _ h2

theorem mapM_ok {α β : Type _} (f : α → Except PyErr β) (g : α → β) (l : List α)
    (h : ∀ x ∈ l, f x = .ok (g x)) : l.mapM f = .ok (l.map g) := by
  induction l with
  | nil => rfl
  | cons x l ih =>
      rw [List.mapM_cons, h x (by simp), ih (fun y hy => h y (by simp [hy]))]
      rfl

theorem pyGetF_ok (l : List ℚ) (i : ℕ) (h : i < l.length) :
    pyGetF l i = .ok (l.getD i 0) := by
  unfold pyGetF
  rw [List.get?_eq_getElem?, List.getElem?_eq_getElem h, List.getD_eq_getElem l 0 h]

theorem pyGetQ_ok (l : List ℚ) (i : ℤ) (h0 : 0 ≤ i) (h : i.toNat < l.length) :
    pyGetQ l i = .ok (l.getD i.toNat 0) := by
  unfold pyGetQ
  rw [if_pos h0, List.get?_eq_getElem?, List.getElem?_eq_getElem h,
    List.getD_eq_getElem l 0 h]

theorem pyIntDivE_ok (num ws : ℚ) (hws : 0 < ws) (hnum : 0 ≤ num) :
    pyIntDivE num ws = .ok ⌊num / ws⌋ := by
  unfold pyIntDivE
  rw [if_neg (ne_of_gt hws), pyInt_eq_floor _ (div_nonneg hnum hws.le)]

theorem assignFor_ok (data : List (List ℚ)) (d : ℕ) (ws w : ℚ) (r : ℕ)
    (hws : 0 < ws) (hr : r < data.length) :
    assignFor data d ws (dimMin data d) (markerList data d ws) w r =
      .ok (r, (d, markerVal data d ws (binNat data d ws r)), w) := by
  have hdata : data ≠ [] := List.ne_nil_of_length_pos (by omega)
  obtain ⟨hbin, hble⟩ := binNat_le data d ws r hws hr
  have hnn : (0:ℚ) ≤ rowVal data r d - dimMin data d :=
    sub_nonneg.2 (dimMin_le_mem _ _ _ (rowVal_mem_colVals data r d hr))
  have hfl : (0:ℤ) ≤ ⌊(rowVal data r d - dimMin data d) / ws⌋ := by
    rw [← hbin]
    exact Int.natCast_nonneg _
  have hidx : (⌊(rowVal data r d - dimMin data d) / ws⌋).toNat < (markerList data d ws).length := by
    rw [markerList_length, Int.toNat_lt_toNat (by have := nMax_pos data d ws hdata hws; omega)]
    omega
  simp only [assignFor, show ((data.getD r []).getD d 0) = rowVal data r d from rfl,
    pyIntDivE_ok _ _ hws hnn, pyGetQ_ok _ _ hfl hidx, markerList_getD data d ws _ hidx]
  unfold binNat
  rfl

theorem processDim_ok (data : List (List ℚ)) (weights : List ℚ) (ws : ℚ)
    (G : ExpandedGraph) (d : ℕ) (hdata : data ≠ []) (hd : d < weights.length)
    (hws : 0 < ws) :
    processDim data weights ws G d = .ok
      { G with markerNodes := G.markerNodes ++ dimMarkers data d ws
             , chainEdges := G.chainEdges ++ dimChains data d ws (weights.getD d 0)
             , assignEdges := G.assignEdges ++ dimAssigns data d ws (weights.getD d 0) } := by
  have hn2 : ⌊(dimMax data d - dimMin data d) / ws⌋ + 2 = nMax data d ws + 1 := by
    unfold nMax
    ring
  have hmarkers : (List.range (⌊(dimMax data d - dimMin data d) / ws⌋ + 2).toNat).map
      (fun (i : ℕ) => ws * (i : ℚ) + dimMin data d) = markerList data d ws := by
    rw [hn2]
    rfl
  have hlenpos : 0 < (markerList data d ws).length := by
    rw [markerList_length]
    have := nMax_pos data d ws hdata hws
    omega
  have hget0 : pyGetQ (markerList data d ws) 0 =
      .ok ((markerList data d ws).getD 0 0) := by
    have := pyGetQ_ok (markerList data d ws) 0 (le_refl 0) (by simpa using hlenpos)
    simpa using this
  have hmapM : (List.range data.length).mapM
      (assignFor data d ws (dimMin data d) (markerList data d ws) (weights.getD d 0)) =
      .ok (dimAssigns data d ws (weights.getD d 0)) := by
    unfold dimAssigns
    exact mapM_ok _ _ _ (fun r hr => assignFor_ok data d ws _ r hws (List.mem_range.1 hr))
  simp only [processDim, pyGetF_ok weights d hd, listMaxE_eq data d hdata,
    listMinE_eq data d hdata,
    pyIntDivE_ok _ _ hws (sub_nonneg.2 (dimMin_le_dimMax data d hdata)),
    hmarkers, hget0, hmapM]
  unfold dimMarkers dimChains
  rfl

theorem foldlM_processDim_ok (data : List (List ℚ)) (weights : List ℚ) (ws : ℚ)
    (hdata : data ≠ []) (hws : 0 < ws) (ds : List ℕ) :
    ∀ (G : ExpandedGraph), (∀ d ∈ ds, d < weights.length) →
      ds.foldlM (fun G dim => processDim data weights ws G dim) G = .ok
        { numRows := G.numRows
        , markerNodes := G.markerNodes ++ (ds.map (fun d => dimMarkers data d ws)).flatten
        , chainEdges := G.chainEdges ++
            (ds.map (fun d => dimChains data d ws (weights.getD d 0))).flatten
        , assignEdges := G.assignEdges ++
            (ds.map (fun d => dimAssigns data d ws (weights.getD d 0))).flatten } := by
  induction ds with
  | nil =>
      intro G h
      show Except.ok G = _
      simp
  | cons d ds ih =>
      intro G h
      show processDim data weights ws G d >>= _ = _
      rw [processDim_ok data weights ws G d hdata (h d (by simp)) hws, exceptOkBind,
        ih _ (fun x hx => h x (by simp [hx]))]
      simp [List.append_assoc]

theorem create_network_valid (D : ℕ) (data : List (List ℚ)) (weights : List ℚ)
    (ws : ℚ) (h : Valid D data weights ws) :
    create_network D data weights ws = .ok (expandedOf D data weights ws) := by
  obtain ⟨hdata, hrows, hwlen, hws, hwpos⟩ := h
  unfold create_network
  rw [foldlM_processDim_ok data weights ws hdata hws (List.range D) _
    (fun d hd => by rw [hwlen]; exact List.mem_range.1 hd)]
  unfold expandedOf
  simp

/-! Lemmas about the collapse of the expanded graph built on valid input. -/

theorem filter_flatten_nil {β : Type _} (p : β → Bool) (L : List (List β))
    (h : ∀ b ∈ L, b.filter p = []) : (L.flatten).filter p = [] := by
  induction L with
  | nil => rfl
  | cons b L ih =>
      rw [List.flatten_cons, List.filter_append, h b (by simp),
        ih (fun b2 hb => h b2 (by simp [hb]))]
      rfl

theorem filter_flatten_blocks {β : Type _} (p : β → Bool) (block : ℕ → List β)
    (d : ℕ) (ds : List ℕ) (hmem : d ∈ ds) (hnd : ds.Nodup)
    (hothers : ∀ d2 ∈ ds, d2 ≠ d → (block d2).filter p = []) :
    ((ds.map block).flatten).filter p = (block d).filter p := by
  induction ds with
  | nil => simp at hmem
  | cons d2 ds ih =>
      rw [List.map_cons, List.flatten_cons, List.filter_append]
      by_cases hdd : d2 = d
      · subst hdd
        have hrest : ((ds.map block).flatten).filter p = [] := by
          apply filter_flatten_nil
          intro b hb
          rcases List.mem_map.1 hb with ⟨d3, hd3, rfl⟩
          refine hothers d3 (by simp [hd3]) ?_
          intro hq
          subst hq
          exact (List.nodup_cons.1 hnd).1 hd3
        rw [hrest, List.append_nil]
      · rw [hothers d2 (by simp) hdd, List.nil_append]
        have hmem2 : d ∈ ds := by
          rcases List.mem_cons.1 hmem with h | h
          · exact absurd h.symm hdd
          · exact h
        exact ih hmem2 (List.nodup_cons.1 hnd).2 (fun d3 h3 => hothers d3 (by simp [h3]))

theorem find?_flatten_blocks {β : Type _} (p : β → Bool) (block : ℕ → List β)
    (d : ℕ) (ds : List ℕ) (e : β) (hmem : d ∈ ds)
    (hothers : ∀ d2 ∈ ds, d2 ≠ d → (block d2).find? p = none)
    (hself : (block d).find? p = some e) :
    ((ds.map block).flatten).find? p = some e := by
  induction ds with
  | nil => simp at hmem
  | cons d2 ds ih =>
      rw [List.map_cons, List.flatten_cons, List.find?_append]
      by_cases hdd : d2 = d
      · subst hdd
        rw [hself]
        rfl
      · rw [hothers d2 (by simp) hdd, Option.none_or]
        have hmem2 : d ∈ ds := by
          rcases List.mem_cons.1 hmem with h | h
          · exact absurd h.symm hdd
          · exact h
        exact ih hmem2 (fun d3 h3 => hothers d3 (by simp [h3]))

theorem dimMarkers_length (data : List (List ℚ)) (d : ℕ) (ws : ℚ) :
    (dimMarkers data d ws).length = (markerList data d ws).length := by
  unfold dimMarkers
  simp

theorem dimMarkers_ne_nil (data : List (List ℚ)) (d : ℕ) (ws : ℚ)
    (hdata : data ≠ []) (hws : 0 < ws) : dimMarkers data d ws ≠ [] := by
  apply List.ne_nil_of_length_pos
  rw [dimMarkers_length, markerList_length]
  have := nMax_pos data d ws hdata hws
  omega

theorem dimMarkers_dim (data : List (List ℚ)) (d : ℕ) (ws : ℚ) (m : ℕ × ℚ)
    (hm : m ∈ dimMarkers data d ws) : m.1 = d := by
  unfold dimMarkers at hm
  rcases List.mem_map.1 hm with ⟨v, _, rfl⟩
  rfl

theorem dimMarkers_getD (data : List (List ℚ)) (d : ℕ) (ws : ℚ) (idx : ℕ)
    (h : idx < (dimMarkers data d ws).length) :
    (dimMarkers data d ws).getD idx (0, 0) = (d, markerVal data d ws idx) := by
  unfold dimMarkers markerList
  unfold dimMarkers markerList at h
  rw [List.getD_eq_getElem _ _ (by simpa using (by simpa using h))]
  simp

theorem markerNodes_filter (D : ℕ) (data : List (List ℚ)) (weights : List ℚ)
    (ws : ℚ) (d : ℕ) (hd : d < D) :
    (expandedOf D data weights ws).markerNodes.filter (fun m => m.1 = d) =
      dimMarkers data d ws := by
  unfold expandedOf
  rw [filter_flatten_blocks (fun m => m.1 = d) (fun d2 => dimMarkers data d2 ws) d
    (List.range D) (List.mem_range.2 hd) (List.nodup_range D) ?_]
  · rw [List.filter_eq_self.2 ?_]
    intro m hm
    simp [dimMarkers_dim data d ws m hm]
  · intro d2 hd2 hne
    rw [List.filter_eq_nil_iff]
    intro m hm
    simp [dimMarkers_dim data d2 ws m hm, hne]

theorem markerList_pairwise_lt (data : List (List ℚ)) (d : ℕ) (ws : ℚ)
    (hws : 0 < ws) : List.Pairwise (· < ·) (markerList data d ws) := by
  unfold markerList
  rw [List.pairwise_map]
  apply (List.pairwise_lt_range _).imp
  intro a b hab
  unfold markerVal
  have hcast : (a : ℚ) < b := by exact_mod_cast hab
  have := mul_lt_mul_of_pos_left hcast hws
  linarith

theorem insertByValue_append (x : ℕ × ℚ) (l : List (ℕ × ℚ))
    (h : ∀ y ∈ l, ¬ x.2 < y.2) : insertByValue x l = l ++ [x] := by
  induction l with
  | nil => rfl
  | cons y l ih =>
      unfold insertByValue
      rw [if_neg (h y (by simp)), ih (fun z hz => h z (by simp [hz]))]
      rfl

theorem foldl_insertByValue_sorted (l : List (ℕ × ℚ)) :
    ∀ acc : List (ℕ × ℚ), List.Pairwise (fun a b => a.2 ≤ b.2) (acc ++ l) →
      l.foldl (fun acc x => insertByValue x acc) acc = acc ++ l := by
  induction l with
  | nil =>
      intro acc _
      simp
  | cons x l ih =>
      intro acc h
      rw [List.foldl_cons]
      have hx : insertByValue x acc = acc ++ [x] := by
        apply insertByValue_append
        intro y hy
        exact not_lt.2 ((List.pairwise_append.1 h).2.2 y hy x (by simp))
      rw [hx]
      have h2 : List.Pairwise (fun a b => a.2 ≤ b.2) ((acc ++ [x]) ++ l) := by
        rw [List.append_assoc]
        exact h
      rw [ih (acc ++ [x]) h2, List.append_assoc]
      rfl

theorem sortByValue_sorted (l : List (ℕ × ℚ))
    (h : List.Pairwise (fun a b => a.2 ≤ b.2) l) : sortByValue l = l := by
  unfold sortByValue
  have := foldl_insertByValue_sorted l [] (by simpa using h)
  simpa using this

theorem dimMarkers_sorted (data : List (List ℚ)) (d : ℕ) (ws : ℚ) (hws : 0 < ws) :
    sortByValue (dimMarkers data d ws) = dimMarkers data d ws := by
  apply sortByValue_sorted
  unfold dimMarkers
  rw [List.pairwise_map]
  exact (markerList_pairwise_lt data d ws hws).imp (fun hab => le_of_lt hab)

theorem insAux_const (d : ℕ) :
    ∀ (block : List (ℕ × ℚ)) (acc : List ℕ), (∀ m ∈ block, m.1 = d) → d ∈ acc →
      block.foldl (fun acc m => if m.1 ∈ acc then acc else acc ++ [m.1]) acc = acc
  | [], _, _, _ => rfl
  | m :: block, acc, hhom, hd => by
      rw [List.foldl_cons, hhom m (by simp), if_pos hd]
      exact insAux_const d block acc (fun m2 h2 => hhom m2 (by simp [h2])) hd

theorem insAux_block (d : ℕ) (block : List (ℕ × ℚ)) (acc : List ℕ)
    (hhom : ∀ m ∈ block, m.1 = d) (hne : block ≠ []) (hnotin : d ∉ acc) :
    block.foldl (fun acc m => if m.1 ∈ acc then acc else acc ++ [m.1]) acc =
      acc ++ [d] := by
  cases block with
  | nil => exact absurd rfl hne
  | cons m block =>
      rw [List.foldl_cons, hhom m (by simp), if_neg hnotin]
      exact insAux_const d block (acc ++ [d]) (fun m2 h2 => hhom m2 (by simp [h2])) (by simp)

theorem insAux_flatten (data : List (List ℚ)) (ws : ℚ)
    (hne : ∀ d, dimMarkers data d ws ≠ []) :
    ∀ (ds : List ℕ) (acc : List ℕ), ds.Nodup → (∀ d ∈ ds, d ∉ acc) →
      ((ds.map (fun d => dimMarkers data d ws)).flatten).foldl
        (fun acc m => if m.1 ∈ acc then acc else acc ++ [m.1]) acc = acc ++ ds := by
  intro ds
  induction ds with
  | nil =>
      intro acc _ _
      simp
  | cons d ds ih =>
      intro acc hnd hdis
      rw [List.map_cons, List.flatten_cons, List.foldl_append,
        insAux_block d _ acc (fun m hm => dimMarkers_dim data d ws m hm) (hne d)
          (hdis d (by simp)),
        ih (acc ++ [d]) (List.nodup_cons.1 hnd).2 ?_, List.append_assoc]
      · rfl
      · intro d2 h2
        simp only [List.mem_append, List.mem_singleton]
        rintro (hc | hc)
        · exact hdis d2 (by simp [h2]) hc
        · exact (List.nodup_cons.1 hnd).1 (hc ▸ h2)

theorem insertionDims_expandedOf (D : ℕ) (data : List (List ℚ)) (weights : List ℚ)
    (ws : ℚ) (hdata : data ≠ []) (hws : 0 < ws) :
    insertionDims (expandedOf D data weights ws).markerNodes = List.range D := by
  unfold insertionDims expandedOf
  have := insAux_flatten data ws (fun d => dimMarkers_ne_nil data d ws hdata hws)
    (List.range D) [] (List.nodup_range D) (by simp)
  simpa using this

theorem markerVal_inj (data : List (List ℚ)) (d : ℕ) (ws : ℚ) (hws : ws ≠ 0)
    {a b : ℕ} (h : markerVal data d ws a = markerVal data d ws b) : a = b := by
  unfold markerVal at h
  have h2 : ws * (a : ℚ) = ws * b := by linarith
  have := mul_left_cancel₀ hws h2
  exact_mod_cast this

theorem intNeighbors_expandedOf (D : ℕ) (data : List (List ℚ)) (weights : List ℚ)
    (ws : ℚ) (d i : ℕ) (hd : d < D) (hws : 0 < ws) :
    intNeighbors (expandedOf D data weights ws) (d, markerVal data d ws i) =
      (List.range data.length).filter (fun r => binNat data d ws r = i) := by
  unfold intNeighbors expandedOf
  rw [filter_flatten_blocks (fun e => e.2.1 = (d, markerVal data d ws i))
    (fun d2 => dimAssigns data d2 ws (weights.getD d2 0)) d
    (List.range D) (List.mem_range.2 hd) (List.nodup_range D) ?_]
  · unfold dimAssigns
    rw [List.filter_map, List.map_map]
    have hpred : ((fun e : ℕ × (ℕ × ℚ) × ℚ => decide (e.2.1 = (d, markerVal data d ws i))) ∘
        (fun r => (r, (d, markerVal data d ws (binNat data d ws r)), weights.getD d 0))) =
        (fun r => decide (binNat data d ws r = i)) := by
      funext r
      simp only [Function.comp]
      rw [decide_eq_decide]
      constructor
      · intro h
        exact markerVal_inj data d ws (ne_of_gt hws) (congrArg Prod.snd h)
      · intro h
        rw [h]
    rw [hpred]
    have hfst : ((fun e : ℕ × (ℕ × ℚ) × ℚ => e.1) ∘
        (fun r => (r, (d, markerVal data d ws (binNat data d ws r)), weights.getD d 0))) =
        (fun r : ℕ => r) := rfl
    rw [hfst, List.map_id']
  · intro d2 hd2 hne
    rw [List.filter_eq_nil_iff]
    intro e he
    unfold dimAssigns at he
    rcases List.mem_map.1 he with ⟨r, hr, rfl⟩
    simp [hne]

theorem find?_range_eq_self (R r : ℕ) (hr : r < R) :
    (List.range R).find? (fun r2 => r2 = r) = some r := by
  induction R with
  | zero => omega
  | succ R ih =>
      rw [List.range_succ, List.find?_append]
      by_cases h : r < R
      · rw [ih h]
        rfl
      · have hrR : r = R := by omega
        have hnone : (List.range R).find? (fun r2 => decide (r2 = r)) = none := by
          rw [List.find?_eq_none]
          intro x hx
          have := List.mem_range.1 hx
          simp
          omega
        rw [hnone, Option.none_or]
        simp [List.find?, hrR]

theorem assignWeight_expandedOf (D : ℕ) (data : List (List ℚ)) (weights : List ℚ)
    (ws : ℚ) (d i r : ℕ) (hd : d < D) (hr : r < data.length)
    (hbin : binNat data d ws r = i) :
    assignWeight (expandedOf D data weights ws) (d, markerVal data d ws i) r =
      weights.getD d 0 := by
  unfold assignWeight expandedOf
  rw [find?_flatten_blocks
    (fun e => e.1 = r ∧ e.2.1 = (d, markerVal data d ws i))
    (fun d2 => dimAssigns data d2 ws (weights.getD d2 0)) d (List.range D)
    (r, (d, markerVal data d ws i), weights.getD d 0) (List.mem_range.2 hd) ?_ ?_]
  · intro d2 hd2 hne
    rw [List.find?_eq_none]
    intro e he
    unfold dimAssigns at he
    rcases List.mem_map.1 he with ⟨r2, hr2, rfl⟩
    simp [hne]
  · unfold dimAssigns
    rw [List.find?_map]
    have hpred : ((fun e : ℕ × (ℕ × ℚ) × ℚ =>
        decide (e.1 = r ∧ e.2.1 = (d, markerVal data d ws i))) ∘
        (fun r2 => (r2, (d, markerVal data d ws (binNat data d ws r2)), weights.getD d 0))) =
        (fun r2 => decide (r2 = r)) := by
      funext r2
      simp only [Function.comp]
      rw [decide_eq_decide]
      constructor
      · intro h
        exact h.1
      · intro h
        subst h
        simp [hbin]
    rw [hpred, find?_range_eq_self data.length r hr]
    simp [hbin]

theorem chainEdges_weight (D : ℕ) (data : List (List ℚ)) (weights : List ℚ)
    (ws : ℚ) (d : ℕ) (e : (ℕ × ℚ) × (ℕ × ℚ) × ℚ)
    (he : e ∈ (expandedOf D data weights ws).chainEdges) (hdim : e.1.1 = d) :
    e.2.2 = weights.getD d 0 := by
  unfold expandedOf at he
  rcases List.mem_flatten.1 he with ⟨b, hb, hbe⟩
  rcases List.mem_map.1 hb with ⟨d2, _, rfl⟩
  unfold dimChains at hbe
  rcases List.mem_map.1 hbe with ⟨p, _, rfl⟩
  have : d2 = d := hdim
  rw [← this]

theorem assignEdges_row_lt (D : ℕ) (data : List (List ℚ)) (weights : List ℚ)
    (ws : ℚ) (e : ℕ × (ℕ × ℚ) × ℚ)
    (he : e ∈ (expandedOf D data weights ws).assignEdges) : e.1 < data.length := by
  unfold expandedOf at he
  rcases List.mem_flatten.1 he with ⟨b, hb, hbe⟩
  rcases List.mem_map.1 hb with ⟨d2, _, rfl⟩
  unfold dimAssigns at hbe
  rcases List.mem_map.1 hbe with ⟨r, hr, rfl⟩
  simpa using List.mem_range.1 hr

theorem intNeighbors_lt (D : ℕ) (data : List (List ℚ)) (weights : List ℚ)
    (ws : ℚ) (m : ℕ × ℚ) (r : ℕ)
    (hr : r ∈ intNeighbors (expandedOf D data weights ws) m) : r < data.length := by
  unfold intNeighbors at hr
  rcases List.mem_map.1 hr with ⟨e, he, rfl⟩
  exact assignEdges_row_lt D data weights ws e (List.mem_filter.1 he).1

theorem dimPrune_expandedOf (D : ℕ) (data : List (List ℚ)) (weights : List ℚ)
    (ws : ℚ) (d : ℕ) (hd : d < D) (hws : 0 < ws) (em : EdgeMap) :
    dimPrune (expandedOf D data weights ws) em d =
      (List.range (dimMarkers data d ws).length).foldl
        (fun acc idx =>
          processMarker (expandedOf D data weights ws) (dimMarkers data d ws) idx acc)
        em := by
  unfold dimPrune
  rw [markerNodes_filter D data weights ws d hd, dimMarkers_sorted data d ws hws]

theorem prune_expandedOf_edges (D : ℕ) (data : List (List ℚ)) (weights : List ℚ)
    (ws : ℚ) (hdata : data ≠ []) (hws : 0 < ws) :
    (prune_markers_minimal (expandedOf D data weights ws)).edges =
      (List.range D).foldl
        (fun acc dim => dimPrune (expandedOf D data weights ws) acc dim) [] := by
  unfold prune_markers_minimal
  rw [insertionDims_expandedOf D data weights ws hdata hws]

theorem normPair_comm (a b : ℕ) : normPair a b = normPair b a := by
  unfold normPair
  rcases Nat.le_total a b with h | h
  · by_cases h2 : b ≤ a
    · have hab : a = b := Nat.le_antisymm h h2
      subst hab
      simp
    · simp [h, h2]
  · by_cases h2 : a ≤ b
    · have hab : a = b := Nat.le_antisymm h2 h
      subst hab
      simp
    · simp [h, h2]

theorem maxOfList_mem (l : List ℚ) (h : l ≠ []) : maxOfList l ∈ l := by
  unfold maxOfList
  cases l with
  | nil => exact absurd rfl h
  | cons x xs => exact foldl_max_mem xs x

theorem le_maxOfList (l : List ℚ) (x : ℚ) (hx : x ∈ l) : x ≤ maxOfList l := by
  unfold maxOfList
  cases l with
  | nil => simp at hx
  | cons y ys =>
      rcases List.mem_cons.1 hx with h | h
      · rw [h]
        exact le_foldl_max ys y
      · exact mem_le_foldl_max ys y x h

theorem minOfList_mem (l : List ℚ) (h : l ≠ []) : minOfList l ∈ l := by
  unfold minOfList
  cases l with
  | nil => exact absurd rfl h
  | cons x xs => exact foldl_min_mem xs x

theorem minOfList_le (l : List ℚ) (x : ℚ) (hx : x ∈ l) : minOfList l ≤ x := by
  unfold minOfList
  cases l with
  | nil => simp at hx
  | cons y ys =>
      rcases List.mem_cons.1 hx with h | h
      · rw [h]
        exact foldl_min_le ys y
      · exact foldl_min_le_mem ys y x h

theorem maxOfList_perm (l l2 : List ℚ) (hp : l.Perm l2) : maxOfList l = maxOfList l2 := by
  cases l with
  | nil =>
      have : l2 = [] := hp.nil_eq.symm
      rw [this]
  | cons x xs =>
      have hne : (x :: xs) ≠ ([] : List ℚ) := by simp
      have hne2 : l2 ≠ [] := by
        intro hq
        rw [hq] at hp
        exact hne hp.eq_nil
      apply le_antisymm
      · exact le_maxOfList l2 _ (hp.mem_iff.1 (maxOfList_mem _ hne))
      · exact le_maxOfList (x :: xs) _ (hp.mem_iff.2 (maxOfList_mem l2 hne2))

theorem minOfList_perm (l l2 : List ℚ) (hp : l.Perm l2) : minOfList l = minOfList l2 := by
  cases l with
  | nil =>
      have : l2 = [] := hp.nil_eq.symm
      rw [this]
  | cons x xs =>
      have hne : (x :: xs) ≠ ([] : List ℚ) := by simp
      have hne2 : l2 ≠ [] := by
        intro hq
        rw [hq] at hp
        exact hne hp.eq_nil
      apply le_antisymm
      · exact minOfList_le (x :: xs) _ (hp.mem_iff.2 (minOfList_mem l2 hne2))
      · exact minOfList_le l2 _ (hp.mem_iff.1 (minOfList_mem _ hne))

theorem dimMax_perm (data data2 : List (List ℚ)) (d : ℕ) (hp : data.Perm data2) :
    dimMax data d = dimMax data2 d :=
  maxOfList_perm _ _ (hp.map _)

theorem dimMin_perm (data data2 : List (List ℚ)) (d : ℕ) (hp : data.Perm data2) :
    dimMin data d = dimMin data2 d :=
  minOfList_perm _ _ (hp.map _)

theorem markerList_perm (data data2 : List (List ℚ)) (d : ℕ) (ws : ℚ)
    (hp : data.Perm data2) : markerList data2 d ws = markerList data d ws := by
  unfold markerList nMax markerVal
  rw [dimMax_perm data data2 d hp, dimMin_perm data data2 d hp]

theorem markerList_nodup (data : List (List ℚ)) (d : ℕ) (ws : ℚ) (hws : 0 < ws) :
    (markerList data d ws).Nodup :=
  (markerList_pairwise_lt data d ws hws).imp (fun hab => ne_of_lt hab)

theorem markerNodes_nodup (D : ℕ) (data : List (List ℚ)) (weights : List ℚ)
    (ws : ℚ) (hws : 0 < ws) : (expandedOf D data weights ws).markerNodes.Nodup := by
  unfold expandedOf
  rw [List.nodup_flatten]
  constructor
  · intro b hb
    rcases List.mem_map.1 hb with ⟨d2, _, rfl⟩
    unfold dimMarkers
    exact (markerList_nodup data d2 ws hws).map
      (fun v1 v2 hv => (Prod.ext_iff.1 hv).2)
  · rw [List.pairwise_map]
    apply (List.pairwise_lt_range D).imp
    intro d1 d2 hlt m hm1 hm2
    have h1 := dimMarkers_dim data d1 ws m hm1
    have h2 := dimMarkers_dim data d2 ws m hm2
    omega

theorem filter_range_eq (R r : ℕ) (hr : r < R) :
    (List.range R).filter (fun r2 => r2 = r) = [r] := by
  induction R with
  | zero => omega
  | succ R ih =>
      rw [List.range_succ, List.filter_append]
      by_cases h : r < R
      · rw [ih h]
        have hne : ¬ R = r := by omega
        simp [hne]
      · have hrR : r = R := by omega
        have hnone : (List.range R).filter (fun r2 => decide (r2 = r)) = [] := by
          rw [List.filter_eq_nil_iff]
          intro x hx
          have := List.mem_range.1 hx
          simp
          omega
        rw [hnone]
        simp [hrR]

theorem assignEdges_filter_row (D : ℕ) (data : List (List ℚ)) (weights : List ℚ)
    (ws : ℚ) (d r : ℕ) (hd : d < D) (hr : r < data.length) :
    (expandedOf D data weights ws).assignEdges.filter
        (fun e => e.1 = r ∧ e.2.1.1 = d) =
      [(r, (d, markerVal data d ws (binNat data d ws r)), weights.getD d 0)] := by
  unfold expandedOf
  rw [filter_flatten_blocks (fun e => e.1 = r ∧ e.2.1.1 = d)
    (fun d2 => dimAssigns data d2 ws (weights.getD d2 0)) d
    (List.range D) (List.mem_range.2 hd) (List.nodup_range D) ?_]
  · unfold dimAssigns
    rw [List.filter_map]
    have hpred : ((fun e : ℕ × (ℕ × ℚ) × ℚ => decide (e.1 = r ∧ e.2.1.1 = d)) ∘
        (fun r2 => (r2, (d, markerVal data d ws (binNat data d ws r2)), weights.getD d 0))) =
        (fun r2 => decide (r2 = r)) := by
      funext r2
      simp only [Function.comp]
      rw [decide_eq_decide]
      constructor
      · intro h
        exact h.1
      · intro h
        exact ⟨h, trivial⟩
    rw [hpred, filter_range_eq data.length r hr]
    rfl
  · intro d2 hd2 hne
    rw [List.filter_eq_nil_iff]
    intro e he
    unfold dimAssigns at he
    rcases List.mem_map.1 he with ⟨r2, _, rfl⟩
    simp [hne]

theorem headD_mem_of_ne_nil {l : List ℕ} (h : l ≠ []) (d : ℕ) : l.headD d ∈ l := by
  cases l with
  | nil => exact absurd rfl h
  | cons x xs => simp

theorem ringPairs_mem (ns : List ℕ) (p : ℕ × ℕ) (hp : p ∈ ringPairs ns) :
    p.1 ∈ ns ∧ p.2 ∈ ns := by
  unfold ringPairs at hp
  rcases List.mem_map.1 hp with ⟨i, hi, rfl⟩
  have hi2 := List.mem_range.1 hi
  have hmod : (i + 1) % ns.length < ns.length := Nat.mod_lt _ (by omega)
  constructor
  · rw [List.getD_eq_getElem _ _ hi2]
    exact List.getElem_mem hi2
  · rw [List.getD_eq_getElem _ _ hmod]
    exact List.getElem_mem hmod

theorem processMarker_bounded {R : ℕ} (G : ExpandedGraph) (markers : List (ℕ × ℚ))
    (idx : ℕ) (em : EdgeMap) (hG : ∀ m r, r ∈ intNeighbors G m → r < R)
    (hem : emBounded R em) : emBounded R (processMarker G markers idx em) := by
  simp only [processMarker]
  split
  · exact hem
  · rename_i h0
    have hne : intNeighbors G (markers.getD idx (0, 0)) ≠ [] := by
      intro hq
      rw [hq] at h0
      exact h0 rfl
    have hring : emBounded R (ringStep em (intNeighbors G (markers.getD idx (0, 0)))
        (assignWeight G (markers.getD idx (0, 0))
          ((intNeighbors G (markers.getD idx (0, 0))).headD 0))) := by
      rw [ringStep_eq_addList]
      refine emBounded_addList hem (fun p hp => ?_)
      have := ringPairs_mem _ p hp
      exact ⟨hG _ _ this.1, hG _ _ this.2⟩
    split
    · split
      · rename_i hnext
        apply emBounded_addEdge hring
        · exact hG _ _ (headD_mem_of_ne_nil hne 0)
        · refine hG _ _ (headD_mem_of_ne_nil ?_ 0)
          intro hq
          rw [hq] at hnext
          simp at hnext
      · exact hring
    · exact hring

theorem processMarker_keysNodup (G : ExpandedGraph) (markers : List (ℕ × ℚ))
    (idx : ℕ) (em : EdgeMap) (h : keysNodup em) :
    keysNodup (processMarker G markers idx em) := by
  simp only [processMarker]
  split
  · exact h
  · have hring : keysNodup (ringStep em (intNeighbors G (markers.getD idx (0, 0)))
        (assignWeight G (markers.getD idx (0, 0))
          ((intNeighbors G (markers.getD idx (0, 0))).headD 0))) := by
      rw [ringStep_eq_addList]
      exact keysNodup_addList _ _ _ h
    split
    · split
      · exact keysNodup_addEdge _ _ _ _ hring
      · exact hring
    · exact hring

theorem foldl_preserve {α : Type _} (P : EdgeMap → Prop) (f : EdgeMap → α → EdgeMap)
    (hf : ∀ em a, P em → P (f em a)) :
    ∀ (l : List α) (em : EdgeMap), P em → P (l.foldl f em)
  | [], em, h => h
  | a :: l, em, h => by
      rw [List.foldl_cons]
      exact foldl_preserve P f hf l (f em a) (hf em a h)

theorem collect_fold_id :
    ∀ (em : EdgeMap) (acc : List ℕ), (∀ e ∈ em, e.1.1 ∈ acc ∧ e.1.2 ∈ acc) →
      em.foldl (fun acc e =>
        let acc1 := if e.1.1 ∈ acc then acc else acc ++ [e.1.1]
        if e.1.2 ∈ acc1 then acc1 else acc1 ++ [e.1.2]) acc = acc
  | [], _, _ => rfl
  | e :: em, acc, h => by
      have h1 := h e (by simp)
      rw [List.foldl_cons]
      simp only [if_pos h1.1, if_pos h1.2]
      exact collect_fold_id em acc (fun e2 h2 => h e2 (by simp [h2]))

theorem collectNodes_bounded (R : ℕ) (em : EdgeMap) (hem : emBounded R em) :
    collectNodes (List.range R) em = List.range R := by
  unfold collectNodes
  exact collect_fold_id em (List.range R)
    (fun e he => ⟨List.mem_range.2 (hem e he).1, List.mem_range.2 (hem e he).2⟩)

/-! Counting lemmas for the per-dimension weight bound. -/

theorem countP_or_le {α : Type _} (l : List α) (p q : α → Prop)
    [DecidablePred p] [DecidablePred q] :
    l.countP (fun x => p x ∨ q x) ≤
      l.countP (fun x => p x) + l.countP (fun x => q x) := by
  induction l with
  | nil => simp
  | cons x l ih =>
      rw [List.countP_cons, List.countP_cons, List.countP_cons]
      by_cases hp : p x
      · by_cases hq : q x
        · rw [if_pos (by simpa using Or.inl hp), if_pos (by simpa using hp),
            if_pos (by simpa using hq)]
          omega
        · rw [if_pos (by simpa using Or.inl hp), if_pos (by simpa using hp),
            if_neg (by simpa using hq)]
          omega
      · by_cases hq : q x
        · rw [if_pos (by simpa using Or.inr hq), if_neg (by simpa using hp),
            if_pos (by simpa using hq)]
          omega
        · rw [if_neg (by simpa using not_or.2 ⟨hp, hq⟩), if_neg (by simpa using hp),
            if_neg (by simpa using hq)]
          omega

theorem countP_eq_le_one (ns : List ℕ) (hnd : ns.Nodup) (r : ℕ) :
    ns.countP (fun x => x = r) ≤ 1 := by
  induction ns with
  | nil => simp
  | cons x ns ih =>
      rw [List.countP_cons]
      rcases List.nodup_cons.1 hnd with ⟨hx, hnd2⟩
      by_cases hxr : x = r
      · subst hxr
        have hzero : ns.countP (fun y => y = x) = 0 := by
          rw [List.countP_eq_zero]
          intro y hy
          simp
          intro hq
          exact hx (hq ▸ hy)
        simp [hzero]
      · simp [hxr]
        exact ih hnd2

theorem map_getD_range_self (ns : List ℕ) :
    (List.range ns.length).map (fun i => ns.getD i 0) = ns := by
  apply List.ext_getElem
  · simp
  · intro i h1 h2
    simp [List.getElem?_eq_getElem h2]

theorem countP_getD_le_one (ns : List ℕ) (hnd : ns.Nodup) (r : ℕ) :
    (List.range ns.length).countP (fun i => ns.getD i 0 = r) ≤ 1 := by
  have h1 : (List.range ns.length).countP (fun i => ns.getD i 0 = r) =
      ns.countP (fun x => x = r) := by
    conv_rhs => rw [← map_getD_range_self ns]
    rw [List.countP_map]
    rfl
  rw [h1]
  exact countP_eq_le_one ns hnd r

theorem countP_shift (ns : List ℕ) (r : ℕ) :
    (List.range ns.length).countP (fun i => ns.getD ((i + 1) % ns.length) 0 = r) =
      (List.range ns.length).countP (fun i => ns.getD i 0 = r) := by
  rcases Nat.eq_zero_or_pos ns.length with h0 | h0
  · rw [h0]
    rfl
  · have hmap : (List.range ns.length).map (fun i => (i + 1) % ns.length) =
        (List.range ns.length).rotate 1 := by
      apply List.ext_getElem
      · simp
      · intro i h1 h2
        rw [List.getElem_rotate]
        simp
    have hperm : ((List.range ns.length).map (fun i => (i + 1) % ns.length)).Perm
        (List.range ns.length) := by
      rw [hmap]
      exact List.rotate_perm _ 1
    have hcnt := hperm.countP_eq (fun i => decide (ns.getD i 0 = r))
    rw [← hcnt, List.countP_map]
    rfl

theorem ringPairs_countP_touch_le (ns : List ℕ) (hnd : ns.Nodup) (r : ℕ) :
    (ringPairs ns).countP (fun p => p.1 = r ∨ p.2 = r) ≤ 2 := by
  have hsplit := countP_or_le (ringPairs ns)
    (fun p => p.1 = r) (fun p => p.2 = r)
  have h1 : (ringPairs ns).countP (fun p => p.1 = r) ≤ 1 := by
    unfold ringPairs
    rw [List.countP_map]
    have hc : ((fun p : ℕ × ℕ => decide (p.1 = r)) ∘
        (fun i => (ns.getD i 0, ns.getD ((i + 1) % ns.length) 0))) =
        (fun i => decide (ns.getD i 0 = r)) := rfl
    rw [hc]
    exact countP_getD_le_one ns hnd r
  have h2 : (ringPairs ns).countP (fun p => p.2 = r) ≤ 1 := by
    unfold ringPairs
    rw [List.countP_map]
    have hc : ((fun p : ℕ × ℕ => decide (p.2 = r)) ∘
        (fun i => (ns.getD i 0, ns.getD ((i + 1) % ns.length) 0))) =
        (fun i => decide (ns.getD ((i + 1) % ns.length) 0 = r)) := rfl
    rw [hc, countP_shift]
    exact countP_getD_le_one ns hnd r
  omega

theorem ringPairs_countP_touch_zero (ns : List ℕ) (r : ℕ) (hr : r ∉ ns) :
    (ringPairs ns).countP (fun p => p.1 = r ∨ p.2 = r) = 0 := by
  rw [List.countP_eq_zero]
  intro p hp
  have hmem := ringPairs_mem ns p hp
  simp
  exact ⟨fun h => hr (h ▸ hmem.1), fun h => hr (h ▸ hmem.2)⟩

theorem incW_foldl_le (f : EdgeMap → ℕ → EdgeMap) (c : ℕ → ℚ) (r : ℕ)
    (hnod : ∀ em i, keysNodup em → keysNodup (f em i)) :
    ∀ (n : ℕ),
      (∀ em i, i < n → keysNodup em → incW (f em i) r ≤ incW em r + c i) →
      ∀ em, keysNodup em →
        incW ((List.range n).foldl f em) r ≤ incW em r + (Finset.range n).sum c
  | 0, _, em, _ => by simp
  | n + 1, hstep, em, h => by
      rw [List.range_succ, List.foldl_append, List.foldl_cons, List.foldl_nil,
        Finset.sum_range_succ]
      have hk : keysNodup ((List.range n).foldl f em) :=
        foldl_preserve keysNodup f hnod (List.range n) em h
      have h1 := hstep ((List.range n).foldl f em) n (by omega) hk
      have h2 := incW_foldl_le f c r hnod n
        (fun em2 i hi hk2 => hstep em2 i (by omega) hk2) em h
      linarith

theorem weights_getD_pos (weights : List ℚ) (d : ℕ) (hd : d < weights.length)
    (hwpos : ∀ w ∈ weights, 0 < w) : 0 < weights.getD d 0 := by
  rw [List.getD_eq_getElem weights 0 hd]
  exact hwpos _ (List.getElem_mem hd)

theorem processMarker_incW_le (D : ℕ) (data : List (List ℚ)) (weights : List ℚ)
    (ws : ℚ) (d : ℕ) (hd : d < D) (hws : 0 < ws) (hwd : 0 < weights.getD d 0)
    (r : ℕ) (idx : ℕ)
    (hidx : idx < (dimMarkers data d ws).length) (em : EdgeMap) (h : keysNodup em) :
    incW (processMarker (expandedOf D data weights ws) (dimMarkers data d ws) idx em) r ≤
      incW em r +
        ((if binNat data d ws r = idx then 3 * weights.getD d 0 else 0) +
          (if binNat data d ws r = idx + 1 then weights.getD d 0 else 0)) := by
  have hc1 : (0:ℚ) ≤ if binNat data d ws r = idx then 3 * weights.getD d 0 else 0 := by
    split
    · linarith
    · exact le_refl 0
  have hc2 : (0:ℚ) ≤ if binNat data d ws r = idx + 1 then weights.getD d 0 else 0 := by
    split
    · linarith
    · exact le_refl 0
  have hA3 : (if binNat data d ws r = idx then 2 * weights.getD d 0 else 0) ≤
      (if binNat data d ws r = idx then 3 * weights.getD d 0 else 0) := by
    split
    · linarith
    · exact le_refl 0
  simp only [processMarker, dimMarkers_getD data d ws idx hidx,
    intNeighbors_expandedOf D data weights ws d idx hd hws]
  set ns := (List.range data.length).filter (fun r2 => binNat data d ws r2 = idx) with hns
  split
  · linarith
  · rename_i hlen0
    have hne : ns ≠ [] := by
      intro hq
      exact hlen0 (by rw [hq]; rfl)
    have hhead := headD_mem_of_ne_nil hne 0
    have hheadmem := List.mem_filter.1 (hns ▸ hhead)
    have hheadlt : ns.headD 0 < data.length := List.mem_range.1 hheadmem.1
    have hheadbin : binNat data d ws (ns.headD 0) = idx := of_decide_eq_true hheadmem.2
    have hW : assignWeight (expandedOf D data weights ws) (d, markerVal data d ws idx)
        (ns.headD 0) = weights.getD d 0 :=
      assignWeight_expandedOf D data weights ws d idx _ hd hheadlt hheadbin
    rw [hW]
    have hnodns : ns.Nodup := by
      rw [hns]
      exact (List.nodup_range data.length).filter _
    have hringNodup : keysNodup (ringStep em ns (weights.getD d 0)) := by
      rw [ringStep_eq_addList]
      exact keysNodup_addList _ _ _ h
    have hringW : incW (ringStep em ns (weights.getD d 0)) r ≤
        incW em r + (if binNat data d ws r = idx then 2 * weights.getD d 0 else 0) := by
      rw [ringStep_eq_addList, incW_addList _ _ _ _ h]
      by_cases hbr : binNat data d ws r = idx
      · rw [if_pos hbr]
        have hcount := ringPairs_countP_touch_le ns hnodns r
        have hcq : ((ringPairs ns).countP (fun p => p.1 = r ∨ p.2 = r) : ℚ) ≤ 2 := by
          exact_mod_cast hcount
        have := mul_le_mul_of_nonneg_left hcq hwd.le
        linarith
      · rw [if_neg hbr]
        have hzero : (ringPairs ns).countP (fun p => p.1 = r ∨ p.2 = r) = 0 := by
          apply ringPairs_countP_touch_zero
          intro hmem
          have hmem2 : r ∈ (List.range data.length).filter
              (fun r2 => binNat data d ws r2 = idx) := hns ▸ hmem
          exact hbr (of_decide_eq_true (List.mem_filter.1 hmem2).2)
        rw [hzero]
        simp
    split
    · rename_i hlt
      rw [dimMarkers_getD data d ws (idx + 1) (by omega),
        intNeighbors_expandedOf D data weights ws d (idx + 1) hd hws]
      set ns2 := (List.range data.length).filter
        (fun r2 => binNat data d ws r2 = idx + 1) with hns2
      split
      · rename_i hlen2
        have hne2 : ns2 ≠ [] := by
          intro hq
          rw [hq] at hlen2
          simp at hlen2
        have hhead2 := List.mem_filter.1 (hns2 ▸ headD_mem_of_ne_nil hne2 0)
        rw [incW_addEdge _ _ _ _ _ hringNodup]
        have hbb : (if ns.headD 0 = r ∨ ns2.headD 0 = r then weights.getD d 0 else 0) ≤
            (if binNat data d ws r = idx then weights.getD d 0 else 0) +
            (if binNat data d ws r = idx + 1 then weights.getD d 0 else 0) := by
          have hB0 : (0:ℚ) ≤ if binNat data d ws r = idx then weights.getD d 0 else 0 := by
            split
            · linarith
            · exact le_refl 0
          split
          · rename_i hor
            rcases hor with h1 | h1
            · rw [if_pos (by rw [← h1]; exact hheadbin)]
              linarith
            · have hb2 : binNat data d ws r = idx + 1 := by
                rw [← h1]
                exact of_decide_eq_true hhead2.2
              rw [if_pos hb2]
              linarith
          · linarith
        have hAB : (if binNat data d ws r = idx then 2 * weights.getD d 0 else 0) +
            (if binNat data d ws r = idx then weights.getD d 0 else 0) =
            (if binNat data d ws r = idx then 3 * weights.getD d 0 else 0) := by
          split
          · ring
          · ring
        linarith
      · linarith
    · linarith

/-! Claim theorems. -/

/-- Claim C1: on the matrix with one dimension and row values 0, 1, 2, 3,
weight 1 and window size 2, create_network produces 4 data-row nodes,
3 marker nodes at values 0, 2 and 4, 2 chain edges and 4 assignment edges,
and prune_markers_minimal reduces it to the edge map with edge (0,1) of
weight 2, edge (2,3) of weight 2 and edge (0,2) of weight 1. -/
theorem claim_C1 :
    create_network 1 dataC1 [1] 2 = .ok expC1 ∧
    expC1.numRows = 4 ∧
    expC1.markerNodes = [(0, 0), (0, 2), (0, 4)] ∧
    expC1.chainEdges.length = 2 ∧
    expC1.assignEdges.length = 4 ∧
    prune_markers_minimal expC1 =
      { nodes := [0, 1, 2, 3],
        edges := [((0, 1), 2), ((0, 2), 1), ((2, 3), 2)] } := by
  decide

/-- Claim C4 counterexample: in the concrete scenario, row 3 carries the
dataset maximum 3 of dimension 0, yet its assignment edge goes to the
marker (0, 2) of index 1, the second-to-last one, while the last marker of
the dimension is (0, 4) at index 2 and is not the target of that edge. -/
theorem claim_C4_counterexample :
    create_network 1 dataC1 [1] 2 = .ok expC1 ∧
    rowVal dataC1 3 0 = dimMax dataC1 0 ∧
    (expC1.assignEdges.filter (fun e => e.1 = 3)).map (fun e => e.2.1) = [(0, 2)] ∧
    expC1.markerNodes.getLast? = some (0, 4) ∧
    ((0, 2) : ℕ × ℚ) ≠ ((0, 4) : ℕ × ℚ) := by
  decide

/-- Claim C7 counterexample: the window size -2 violates the precondition
window_size > 0, yet create_network raises no error at all and returns a
complete graph, so no InvalidInput failure happens on this invalid input. -/
theorem claim_C7_counterexample :
    (-2 : ℚ) ≤ 0 ∧ create_network 1 dataC1 [1] (-2) = .ok negWindowGraph := by
  decide

/-- Claim C7 (amended): the builder performs no input validation and never
raises a dedicated InvalidInput error.  A negative window size is accepted
and yields a graph; an empty matrix fails only inside the per-dimension
reduction with the numpy ValueError; a weights vector shorter than the
number of dimensions fails with an IndexError when the missing weight is
read; a window size of zero fails with the OverflowError that int() raises
on the infinite quotient; and a weights vector longer than the number of
dimensions is silently accepted with the extra entries ignored. -/
theorem claim_C7_amended :
    create_network 1 dataC1 [1] (-2) = .ok negWindowGraph ∧
    create_network 1 ([] : List (List ℚ)) [1] 2 = .error .valueError ∧
    create_network 1 dataC1 [] 2 = .error .indexError ∧
    create_network 1 dataC1 [1] 0 = .error .overflowError ∧
    create_network 1 dataC1 [1, 5] 2 = create_network 1 dataC1 [1] 2 := by
  decide

/-- Claim C8 counterexample: with one dimension of weight 1, window size 2
and column values 0..5, row 2 is the first element of the middle ring and
receives ring weight 2 plus an incoming and an outgoing bridge of weight 1
each, so the weight the single dimension contributes to edges incident to
row 2 is 4, which exceeds 2 times the dimension weight. -/
theorem claim_C8_counterexample :
    construct_net 1 dataC8 [1] 2 = .ok { nodes := [0, 1, 2, 3, 4, 5], edges := edgesC8 } ∧
    incW edgesC8 2 = 4 ∧
    ¬ incW edgesC8 2 ≤ 2 * 1 := by
  decide

/-- Claim C9: construct_net is a pure function of the matrix, the weights
and the window size, so two runs on identical inputs return equal reduced
graphs, with the same node list and the same accumulated edge weights. -/
theorem claim_C9 (D : ℕ) (data : List (List ℚ)) (weights : List ℚ) (ws : ℚ) :
    construct_net D data weights ws = construct_net D data weights ws ∧
    ∀ r1 r2, construct_net D data weights ws = .ok r1 →
      construct_net D data weights ws = .ok r2 →
      r1.nodes = r2.nodes ∧ r1.edges = r2.edges := by
  refine ⟨rfl, fun r1 r2 h1 h2 => ?_⟩
  rw [h1] at h2
  cases h2
  exact ⟨rfl, rfl⟩

/-- Claim C9 witness: the two runs on the concrete scenario agree. -/
theorem claim_C9_witness :
    (prune_markers_minimal expC1).nodes = (prune_markers_minimal expC1).nodes ∧
    (prune_markers_minimal expC1).edges = (prune_markers_minimal expC1).edges :=
  (claim_C9 1 dataC1 [1] 2).2 (prune_markers_minimal expC1) (prune_markers_minimal expC1)
    (by decide) (by decide)

/-- Claim C2: the per-marker collapse step adds, for a marker that is not
last in its dimension and whose own and next neighbor sets are non-empty,
exactly one bridge edge between the first element of its neighbor list and
the first element of the next neighbor list, accumulating the weight w the
step reads off the assignment edge; when a marker has no integer
neighbors the step produces nothing at all, neither ring nor outgoing
bridge, and no bridge is produced toward it either: the step at the
preceding marker yields exactly its ring and nothing more; and on a valid
input that weight w equals the dimension chain weight, which is also the
weight of every chain edge of the dimension. -/
theorem claim_C2 :
    (∀ (G : ExpandedGraph) (mks : List (ℕ × ℚ)) (idx : ℕ) (em : EdgeMap),
      intNeighbors G (mks.getD idx (0, 0)) = [] →
      processMarker G mks idx em = em) ∧
    (∀ (G : ExpandedGraph) (mks : List (ℕ × ℚ)) (idx : ℕ) (em : EdgeMap),
      idx < mks.length - 1 →
      intNeighbors G (mks.getD idx (0, 0)) ≠ [] →
      intNeighbors G (mks.getD (idx + 1) (0, 0)) ≠ [] →
      ∀ x y : ℕ,
        wt (processMarker G mks idx em) x y =
          wt (ringStep em (intNeighbors G (mks.getD idx (0, 0)))
              (assignWeight G (mks.getD idx (0, 0))
                ((intNeighbors G (mks.getD idx (0, 0))).headD 0))) x y +
            (if normPair x y =
                normPair ((intNeighbors G (mks.getD idx (0, 0))).headD 0)
                  ((intNeighbors G (mks.getD (idx + 1) (0, 0))).headD 0)
              then assignWeight G (mks.getD idx (0, 0))
                ((intNeighbors G (mks.getD idx (0, 0))).headD 0)
              else 0)) ∧
    (∀ (G : ExpandedGraph) (mks : List (ℕ × ℚ)) (idx : ℕ) (em : EdgeMap),
      intNeighbors G (mks.getD idx (0, 0)) ≠ [] →
      intNeighbors G (mks.getD (idx + 1) (0, 0)) = [] →
      processMarker G mks idx em =
        ringStep em (intNeighbors G (mks.getD idx (0, 0)))
          (assignWeight G (mks.getD idx (0, 0))
            ((intNeighbors G (mks.getD idx (0, 0))).headD 0))) ∧
    (∀ (D : ℕ) (data : List (List ℚ)) (weights : List ℚ) (ws : ℚ),
      Valid D data weights ws → ∀ d, d < D → ∀ i r,
      r ∈ intNeighbors (expandedOf D data weights ws) (d, markerVal data d ws i) →
      assignWeight (expandedOf D data weights ws) (d, markerVal data d ws i) r =
        weights.getD d 0 ∧
      ∀ e ∈ (expandedOf D data weights ws).chainEdges, e.1.1 = d →
        e.2.2 = weights.getD d 0) := by
  refine ⟨?_, ?_, ?_, ?_⟩
  · intro G mks idx em h
    simp only [processMarker]
    rw [h]
    simp
  · intro G mks idx em hlt hns hns2 x y
    have h1 : ¬ (intNeighbors G (mks.getD idx (0, 0))).length = 0 := by
      simpa [List.length_eq_zero] using hns
    have h2 : 0 < (intNeighbors G (mks.getD (idx + 1) (0, 0))).length :=
      List.length_pos.2 hns2
    simp only [processMarker]
    rw [if_neg h1, if_pos hlt, if_pos h2, wt_addEdge]
  · intro G mks idx em hns hnext
    have h1 : ¬ (intNeighbors G (mks.getD idx (0, 0))).length = 0 := by
      simpa [List.length_eq_zero] using hns
    simp only [processMarker]
    rw [if_neg h1]
    split
    · rw [hnext]
      simp
    · rfl
  · intro D data weights ws hV d hd i r hr
    obtain ⟨hdata, hrows, hwlen, hws, hwpos⟩ := hV
    rw [intNeighbors_expandedOf D data weights ws d i hd hws] at hr
    have hmem := List.mem_filter.1 hr
    have hbin : binNat data d ws r = i := by simpa using hmem.2
    exact ⟨assignWeight_expandedOf D data weights ws d i r hd
        (List.mem_range.1 hmem.1) hbin,
      fun e he hdim => chainEdges_weight D data weights ws d e he hdim⟩

/-- Claim C2 witness: in the concrete scenario the last marker is skipped
entirely, the step at the second marker produces only its ring because the
next marker is empty, and the step at the first marker accumulates exactly
one bridge edge weight on the pair of first ring elements. -/
theorem claim_C2_witness :
    processMarker expC1 [(0, 0), (0, 2), (0, 4)] 2 [] = [] ∧
    processMarker expC1 [(0, 0), (0, 2), (0, 4)] 1 [] =
      ringStep []
        (intNeighbors expC1 ([((0 : ℕ), (0 : ℚ)), (0, 2), (0, 4)].getD 1 (0, 0)))
        (assignWeight expC1 ([((0 : ℕ), (0 : ℚ)), (0, 2), (0, 4)].getD 1 (0, 0))
          ((intNeighbors expC1
            ([((0 : ℕ), (0 : ℚ)), (0, 2), (0, 4)].getD 1 (0, 0))).headD 0)) ∧
    wt (processMarker expC1 [(0, 0), (0, 2), (0, 4)] 0 []) 0 2 =
      wt (ringStep []
          (intNeighbors expC1 ([((0 : ℕ), (0 : ℚ)), (0, 2), (0, 4)].getD 0 (0, 0)))
          (assignWeight expC1 ([((0 : ℕ), (0 : ℚ)), (0, 2), (0, 4)].getD 0 (0, 0))
            ((intNeighbors expC1
              ([((0 : ℕ), (0 : ℚ)), (0, 2), (0, 4)].getD 0 (0, 0))).headD 0))) 0 2 +
        (if normPair 0 2 =
            normPair ((intNeighbors expC1
                ([((0 : ℕ), (0 : ℚ)), (0, 2), (0, 4)].getD 0 (0, 0))).headD 0)
              ((intNeighbors expC1
                ([((0 : ℕ), (0 : ℚ)), (0, 2), (0, 4)].getD (0 + 1) (0, 0))).headD 0)
          then assignWeight expC1 ([((0 : ℕ), (0 : ℚ)), (0, 2), (0, 4)].getD 0 (0, 0))
            ((intNeighbors expC1
              ([((0 : ℕ), (0 : ℚ)), (0, 2), (0, 4)].getD 0 (0, 0))).headD 0)
          else 0) :=
  ⟨claim_C2.1 expC1 [(0, 0), (0, 2), (0, 4)] 2 [] (by decide),
    claim_C2.2.2.1 expC1 [(0, 0), (0, 2), (0, 4)] 1 [] (by decide) (by decide),
    claim_C2.2.1 expC1 [(0, 0), (0, 2), (0, 4)] 0 [] (by decide) (by decide) (by decide) 0 2⟩

/-- Claim C3: the ring step accumulates, on every unordered pair, the
weight w once per ring traversal step that lands on that pair; a single
neighbor yields a self-loop, and exactly two neighbors yield one edge
whose weight is accumulated twice. -/
theorem claim_C3 :
    (∀ (em : EdgeMap) (ns : List ℕ) (w : ℚ) (x y : ℕ),
      wt (ringStep em ns w) x y = wt em x y +
        w * ((ringPairs ns).countP (fun p => normPair p.1 p.2 = normPair x y) : ℕ)) ∧
    (∀ (em : EdgeMap) (r : ℕ) (w : ℚ), ringStep em [r] w = addEdge em r r w) ∧
    (∀ (em : EdgeMap) (a b : ℕ) (w : ℚ),
      wt (ringStep em [a, b] w) a b = wt em a b + 2 * w) := by
  refine ⟨fun em ns w x y => ?_, fun em r w => ?_, fun em a b w => ?_⟩
  · rw [ringStep_eq_addList, wt_addList]
  · simp [ringStep, List.range_succ]
  · have h2 : ringStep em [a, b] w = addEdge (addEdge em a b w) b a w := by
      simp [ringStep, List.range_succ]
    rw [h2, wt_addEdge, wt_addEdge, if_pos rfl, if_pos (normPair_comm a b)]
    ring

/-- Claim C4 (amended): every row is assigned, in every dimension, to the
marker of index floor((value - min) / window_size); the index is always in
range; and a row carrying the dataset maximum of the dimension is assigned
to the second-to-last marker, of index n - 1, not to the last one. -/
theorem claim_C4 (D : ℕ) (data : List (List ℚ)) (weights : List ℚ) (ws : ℚ)
    (h : Valid D data weights ws) (d r : ℕ) (hd : d < D) (hr : r < data.length) :
    create_network D data weights ws = .ok (expandedOf D data weights ws) ∧
    (expandedOf D data weights ws).assignEdges.filter
        (fun e => e.1 = r ∧ e.2.1.1 = d) =
      [(r, (d, markerVal data d ws (binNat data d ws r)), weights.getD d 0)] ∧
    (binNat data d ws r : ℤ) = ⌊(rowVal data r d - dimMin data d) / ws⌋ ∧
    binNat data d ws r < (markerList data d ws).length ∧
    (rowVal data r d = dimMax data d →
      (binNat data d ws r : ℤ) = nMax data d ws - 1) := by
  obtain ⟨hdata, hrows, hwlen, hws, hwpos⟩ := h
  obtain ⟨hbin, hble⟩ := binNat_le data d ws r hws hr
  refine ⟨create_network_valid D data weights ws ⟨hdata, hrows, hwlen, hws, hwpos⟩,
    assignEdges_filter_row D data weights ws d r hd hr, hbin, ?_, ?_⟩
  · rw [markerList_length]
    have hpos := nMax_pos data d ws hdata hws
    omega
  · intro hmax
    rw [hbin, hmax]
    unfold nMax
    ring

/-- Claim C4 witness: the concrete scenario at dimension 0 and row 3, the
row carrying the dataset maximum. -/
theorem claim_C4_witness :
    create_network 1 dataC1 [1] 2 = .ok (expandedOf 1 dataC1 [1] 2) ∧
    (expandedOf 1 dataC1 [1] 2).assignEdges.filter
        (fun e => e.1 = 3 ∧ e.2.1.1 = 0) =
      [(3, (0, markerVal dataC1 0 2 (binNat dataC1 0 2 3)), ([(1 : ℚ)].getD 0 0))] ∧
    (binNat dataC1 0 2 3 : ℤ) = ⌊(rowVal dataC1 3 0 - dimMin dataC1 0) / 2⌋ ∧
    binNat dataC1 0 2 3 < (markerList dataC1 0 2).length ∧
    (rowVal dataC1 3 0 = dimMax dataC1 0 →
      (binNat dataC1 0 2 3 : ℤ) = nMax dataC1 0 2 - 1) :=
  claim_C4 1 dataC1 [1] 2 (by decide) 0 3 (by decide) (by decide)

/-- Claim C5: on a valid input every dimension generates exactly
floor((max - min) / window_size) + 2 marker nodes, with values strictly
increasing, evenly spaced by the window size and starting at the dimension
minimum; marker identities are globally unique; and the marker nodes are
unchanged under any permutation of the matrix rows. -/
theorem claim_C5 (D : ℕ) (data : List (List ℚ)) (weights : List ℚ) (ws : ℚ)
    (h : Valid D data weights ws) :
    create_network D data weights ws = .ok (expandedOf D data weights ws) ∧
    (∀ d, d < D →
      ((expandedOf D data weights ws).markerNodes.filter
          (fun m => m.1 = d)).length = (markerList data d ws).length ∧
      ((markerList data d ws).length : ℤ) =
        ⌊(dimMax data d - dimMin data d) / ws⌋ + 2 ∧
      List.Pairwise (· < ·) (markerList data d ws) ∧
      (∀ i, i + 1 < (markerList data d ws).length →
        (markerList data d ws).getD (i + 1) 0 -
          (markerList data d ws).getD i 0 = ws) ∧
      (markerList data d ws).getD 0 0 = dimMin data d) ∧
    (expandedOf D data weights ws).markerNodes.Nodup ∧
    (∀ data2, data.Perm data2 →
      (expandedOf D data2 weights ws).markerNodes =
        (expandedOf D data weights ws).markerNodes) := by
  obtain ⟨hdata, hrows, hwlen, hws, hwpos⟩ := h
  refine ⟨create_network_valid D data weights ws ⟨hdata, hrows, hwlen, hws, hwpos⟩,
    ?_, markerNodes_nodup D data weights ws hws, ?_⟩
  · intro d hd
    have hpos := nMax_pos data d ws hdata hws
    refine ⟨by rw [markerNodes_filter D data weights ws d hd, dimMarkers_length],
      ?_, markerList_pairwise_lt data d ws hws, ?_, ?_⟩
    · rw [markerList_length, Int.toNat_of_nonneg (by omega)]
      unfold nMax
      ring
    · intro i hi
      rw [markerList_getD data d ws (i + 1) hi, markerList_getD data d ws i (by omega)]
      unfold markerVal
      push_cast
      ring
    · rw [markerList_getD data d ws 0 (by rw [markerList_length]; omega)]
      unfold markerVal
      simp
  · intro data2 hp
    unfold expandedOf
    have hblocks : (List.range D).map (fun d => dimMarkers data2 d ws) =
        (List.range D).map (fun d => dimMarkers data d ws) := by
      apply List.map_congr_left
      intro d _
      unfold dimMarkers
      rw [markerList_perm data data2 d ws hp]
    rw [hblocks]

/-- Claim C5 witness: the concrete scenario has 3 markers, spaced by 2,
starting at 0, and its marker node list is duplicate-free. -/
theorem claim_C5_witness :
    ((markerList dataC1 0 2).length : ℤ) =
      ⌊(dimMax dataC1 0 - dimMin dataC1 0) / 2⌋ + 2 ∧
    (markerList dataC1 0 2).getD 0 0 = dimMin dataC1 0 ∧
    (expandedOf 1 dataC1 [1] 2).markerNodes.Nodup :=
  ⟨((claim_C5 1 dataC1 [1] 2 (by decide)).2.1 0 (by decide)).2.1,
    ((claim_C5 1 dataC1 [1] 2 (by decide)).2.1 0 (by decide)).2.2.2.2,
    (claim_C5 1 dataC1 [1] 2 (by decide)).2.2.1⟩

/-- Claim C6: on a valid input the reduced graph returned by construct_net
has exactly the data-row nodes 0 .. R-1: its node list is List.range R, its
node count is R, and every data-row node of the expanded graph belongs to
it. -/
theorem claim_C6 (D : ℕ) (data : List (List ℚ)) (weights : List ℚ) (ws : ℚ)
    (h : Valid D data weights ws) :
    construct_net D data weights ws =
      .ok (prune_markers_minimal (expandedOf D data weights ws)) ∧
    (prune_markers_minimal (expandedOf D data weights ws)).nodes =
      List.range data.length ∧
    (prune_markers_minimal (expandedOf D data weights ws)).nodes.length =
      data.length ∧
    ∀ r, r < (expandedOf D data weights ws).numRows →
      r ∈ (prune_markers_minimal (expandedOf D data weights ws)).nodes := by
  obtain ⟨hdata, hrows, hwlen, hws, hwpos⟩ := h
  have hcn : construct_net D data weights ws =
      .ok (prune_markers_minimal (expandedOf D data weights ws)) := by
    unfold construct_net
    rw [create_network_valid D data weights ws ⟨hdata, hrows, hwlen, hws, hwpos⟩]
  have hbounded : emBounded data.length
      ((insertionDims (expandedOf D data weights ws).markerNodes).foldl
        (fun acc dim => dimPrune (expandedOf D data weights ws) acc dim) []) := by
    apply foldl_preserve (emBounded data.length)
    · intro em dim hem
      unfold dimPrune
      apply foldl_preserve (emBounded data.length)
      · intro em2 idx hem2
        exact processMarker_bounded _ _ _ _
          (fun m r hr => intNeighbors_lt D data weights ws m r hr) hem2
      · exact hem
    · exact emBounded_nil data.length
  have hnodes : (prune_markers_minimal (expandedOf D data weights ws)).nodes =
      List.range data.length := by
    unfold prune_markers_minimal
    exact collectNodes_bounded data.length _ hbounded
  refine ⟨hcn, hnodes, by rw [hnodes]; simp, ?_⟩
  intro r hr
  rw [hnodes]
  exact List.mem_range.2 hr

/-- Claim C6 witness: the concrete scenario keeps exactly the four row
nodes. -/
theorem claim_C6_witness :
    (prune_markers_minimal (expandedOf 1 dataC1 [1] 2)).nodes =
      List.range dataC1.length :=
  (claim_C6 1 dataC1 [1] 2 (by decide)).2.1

/-- Claim C10: on a valid input the last marker of each dimension receives
no assignment edge: every bin index is strictly below the last marker
index n, the last marker has an empty integer-neighbor list, the collapse
step at the last marker leaves the edge map unchanged, and the step at the
second-to-last marker produces its ring but never a bridge edge toward the
last marker. -/
theorem claim_C10 (D : ℕ) (data : List (List ℚ)) (weights : List ℚ) (ws : ℚ)
    (h : Valid D data weights ws) (d : ℕ) (hd : d < D) :
    (∀ r, r < data.length → binNat data d ws r < (nMax data d ws).toNat) ∧
    intNeighbors (expandedOf D data weights ws)
      (d, markerVal data d ws (nMax data d ws).toNat) = [] ∧
    (∀ em, processMarker (expandedOf D data weights ws) (dimMarkers data d ws)
        ((dimMarkers data d ws).length - 1) em = em) ∧
    (∀ em, processMarker (expandedOf D data weights ws) (dimMarkers data d ws)
        ((dimMarkers data d ws).length - 2) em =
      (if (intNeighbors (expandedOf D data weights ws)
            (d, markerVal data d ws ((dimMarkers data d ws).length - 2))).length = 0
        then em
        else ringStep em
          (intNeighbors (expandedOf D data weights ws)
            (d, markerVal data d ws ((dimMarkers data d ws).length - 2)))
          (assignWeight (expandedOf D data weights ws)
            (d, markerVal data d ws ((dimMarkers data d ws).length - 2))
            ((intNeighbors (expandedOf D data weights ws)
              (d, markerVal data d ws ((dimMarkers data d ws).length - 2))).headD 0)))) := by
  obtain ⟨hdata, hrows, hwlen, hws, hwpos⟩ := h
  have hpos := nMax_pos data d ws hdata hws
  have ha : ∀ r, r < data.length → binNat data d ws r < (nMax data d ws).toNat := by
    intro r hr
    obtain ⟨hbin, hble⟩ := binNat_le data d ws r hws hr
    omega
  have hb : intNeighbors (expandedOf D data weights ws)
      (d, markerVal data d ws (nMax data d ws).toNat) = [] := by
    rw [intNeighbors_expandedOf D data weights ws d _ hd hws, List.filter_eq_nil_iff]
    intro r hrr
    have hlt := ha r (List.mem_range.1 hrr)
    simp
    omega
  have hlen : (dimMarkers data d ws).length = (nMax data d ws + 1).toNat := by
    rw [dimMarkers_length, markerList_length]
  have hgetLast : (dimMarkers data d ws).getD
      ((dimMarkers data d ws).length - 1) (0, 0) =
      (d, markerVal data d ws (nMax data d ws).toNat) := by
    rw [dimMarkers_getD data d ws _ (by omega)]
    congr 2
    omega
  refine ⟨ha, hb, ?_, ?_⟩
  · intro em
    simp only [processMarker, hgetLast, hb]
    simp
  · intro em
    have hget2 : (dimMarkers data d ws).getD
        ((dimMarkers data d ws).length - 2) (0, 0) =
        (d, markerVal data d ws ((dimMarkers data d ws).length - 2)) :=
      dimMarkers_getD data d ws _ (by omega)
    have hget3 : (dimMarkers data d ws).getD
        ((dimMarkers data d ws).length - 2 + 1) (0, 0) =
        (d, markerVal data d ws (nMax data d ws).toNat) := by
      rw [dimMarkers_getD data d ws _ (by omega)]
      congr 2
      omega
    simp only [processMarker, hget2, hget3, hb, List.length_nil, lt_self_iff_false,
      if_false, ite_self]

/-- Claim C10 witness: in the concrete scenario the last marker of
dimension 0 has no integer neighbors. -/
theorem claim_C10_witness :
    intNeighbors (expandedOf 1 dataC1 [1] 2)
      (0, markerVal dataC1 0 2 (nMax dataC1 0 2).toNat) = [] :=
  (claim_C10 1 dataC1 [1] 2 (by decide) 0 (by decide)).2.1

/-- Claim C8 (amended): on a valid input, the processing of one dimension d
increases the total edge weight incident to any row r by at most 4 times
the dimension weight: at most twice the weight from the ring containing r,
plus at most one incoming and one outgoing bridge edge; and the reduced
edge map is exactly the fold of those per-dimension passes. -/
theorem claim_C8 (D : ℕ) (data : List (List ℚ)) (weights : List ℚ) (ws : ℚ)
    (h : Valid D data weights ws) (d r : ℕ) (hd : d < D) (_hr : r < data.length)
    (em : EdgeMap) (hem : keysNodup em) :
    (prune_markers_minimal (expandedOf D data weights ws)).edges =
      (List.range D).foldl
        (fun acc dim => dimPrune (expandedOf D data weights ws) acc dim) [] ∧
    incW (dimPrune (expandedOf D data weights ws) em d) r ≤
      incW em r + 4 * weights.getD d 0 := by
  obtain ⟨hdata, hrows, hwlen, hws, hwpos⟩ := h
  have hwd : 0 < weights.getD d 0 := weights_getD_pos weights d (by omega) hwpos
  refine ⟨prune_expandedOf_edges D data weights ws hdata hws, ?_⟩
  rw [dimPrune_expandedOf D data weights ws d hd hws em]
  have hfold := incW_foldl_le
    (fun acc idx =>
      processMarker (expandedOf D data weights ws) (dimMarkers data d ws) idx acc)
    (fun i => (if binNat data d ws r = i then 3 * weights.getD d 0 else 0) +
      (if binNat data d ws r = i + 1 then weights.getD d 0 else 0))
    r
    (fun em2 i h2 => processMarker_keysNodup _ _ i em2 h2)
    (dimMarkers data d ws).length
    (fun em2 i hi h2 => processMarker_incW_le D data weights ws d hd hws hwd r i hi em2 h2)
    em hem
  have hsum : (Finset.range (dimMarkers data d ws).length).sum
      (fun i => (if binNat data d ws r = i then 3 * weights.getD d 0 else 0) +
        (if binNat data d ws r = i + 1 then weights.getD d 0 else 0)) ≤
      4 * weights.getD d 0 := by
    rw [Finset.sum_add_distrib]
    have hs1 : (Finset.range (dimMarkers data d ws).length).sum
        (fun i => if binNat data d ws r = i then 3 * weights.getD d 0 else 0) ≤
        3 * weights.getD d 0 := by
      rw [Finset.sum_ite_eq]
      split
      · exact le_refl _
      · linarith
    have hs2 : (Finset.range (dimMarkers data d ws).length).sum
        (fun i => if binNat data d ws r = i + 1 then weights.getD d 0 else 0) ≤
        weights.getD d 0 := by
      cases hbcase : binNat data d ws r with
      | zero =>
          have hall : ∀ i ∈ Finset.range (dimMarkers data d ws).length,
              (if 0 = i + 1 then weights.getD d 0 else 0) = 0 := by
            intro i _
            rw [if_neg (by omega)]
          rw [Finset.sum_congr rfl hall, Finset.sum_const_zero]
          linarith
      | succ k =>
          have hcong : ∀ i ∈ Finset.range (dimMarkers data d ws).length,
              (if k + 1 = i + 1 then weights.getD d 0 else 0) =
              (if k = i then weights.getD d 0 else 0) := by
            intro i _
            by_cases hik : k = i
            · rw [if_pos hik, if_pos (by omega)]
            · rw [if_neg hik, if_neg (by omega)]
          rw [Finset.sum_congr rfl hcong, Finset.sum_ite_eq]
          split
          · exact le_refl _
          · linarith
    linarith
  linarith

/-- Claim C8 witness: the concrete scenario, dimension 0 and row 2,
starting from the empty edge map. -/
theorem claim_C8_witness :
    (prune_markers_minimal (expandedOf 1 dataC1 [1] 2)).edges =
      (List.range 1).foldl
        (fun acc dim => dimPrune (expandedOf 1 dataC1 [1] 2) acc dim) [] ∧
    incW (dimPrune (expandedOf 1 dataC1 [1] 2) [] 0) 2 ≤
      incW [] 2 + 4 * ([(1 : ℚ)].getD 0 0) :=
  claim_C8 1 dataC1 [1] 2 (by decide) 0 2 (by decide) (by decide) [] keysNodup_nil
